import Mathlib

/-!
FileFinder: the file index and its query engine.

A shallow embedding of `src/cpp/fileindexer/FileIndexer.cpp` /
`FileIndexer.h`.

* A `std::string` is a list of byte values (`Str`); bytes are compared as
  unsigned values, as `std::string::operator<` does.
* `std::unordered_map` is an association list with `find`, `operator[]`
  assignment and `operator[]` update.  The list order stands for the
  (unspecified) iteration order of the container.
* `uint64_t` values are `Nat`, `int64_t` values are `Int`; the code only
  compares them, so no wrap-around arises.
* `std::sort` with the comparator `a.name < b.name` is an insertion sort
  driven by the same comparator.
* `workerFunction` is a step function on an engine state, one step per
  critical section, with the scheduler choosing the worker that moves.
-/

namespace FileFinder

/-! ## Strings and containers -/

/-- A `std::string`: its bytes, each as an unsigned value. -/
abbrev Str := List Nat

/-- The constant `UINT64_MAX`. -/
def UINT64_MAX : Nat := 2 ^ 64 - 1

/-- The constant `INT64_MAX`. -/
def INT64_MAX : Int := 2 ^ 63 - 1

/-- The function `::tolower` on one byte ("C" locale): `A`..`Z` are moved to
`a`..`z`, every other byte is unchanged. -/
def tolower (c : Nat) : Nat := if 65 ≤ c ∧ c ≤ 90 then c + 32 else c

/-- The call `std::transform(s.begin(), s.end(), s.begin(), ::tolower)`. -/
def toLowerStr (s : Str) : Str := s.map tolower

/-- The comparison `a < b` of two `std::string`s: lexicographic on unsigned bytes. -/
def strLt : Str → Str → Bool
  | [], [] => false
  | [], _ :: _ => true
  | _ :: _, [] => false
  | a :: as, b :: bs => if a < b then true else if b < a then false else strLt as bs

/-- The step `if (s.size() > 0 && s[0] == '.') s = s.substr(1)`. -/
def stripDot : Str → Str
  | [] => []
  | c :: t => if c = 46 then t else c :: t

/-- The call `m.find(k)` on an `unordered_map`: the mapped value, or `none` for `end()`. -/
def mapFind {α β : Type} [DecidableEq α] (k : α) : List (α × β) → Option β
  | [] => none
  | (k', v) :: rest => if k' = k then some v else mapFind k rest

/-- The statement `m[k] = v` on an `unordered_map`. -/
def mapAssign {α β : Type} [DecidableEq α] (k : α) (v : β) : List (α × β) → List (α × β)
  | [] => [(k, v)]
  | (k', v') :: rest => if k' = k then (k', v) :: rest else (k', v') :: mapAssign k v rest

/-- An in-place change `f` of `m[k]`, where `operator[]` first value-initialises
a missing entry to `dflt`. -/
def mapUpdate {α β : Type} [DecidableEq α] (k : α) (dflt : β) (f : β → β) :
    List (α × β) → List (α × β)
  | [] => [(k, f dflt)]
  | (k', v) :: rest => if k' = k then (k', f v) :: rest else (k', v) :: mapUpdate k dflt f rest

/-! ## Data model (`FileIndexer.h`) -/

/-- The struct `FileMetadata`. -/
structure FileMetadata where
  path : Str
  name : Str
  extension : Str
  size : Nat
  lastModified : Int
  isDirectory : Bool
deriving DecidableEq, Repr

/-- The class `TrieNode`: children keyed by byte, `isEndOfWord`, `filePaths`. -/
inductive TrieNode where
  | mk (children : List (Nat × TrieNode)) (isEndOfWord : Bool) (filePaths : List Str)

/-- The constructor `TrieNode()`. -/
def TrieNode.empty : TrieNode := .mk [] false []

/-- The three index containers of `FileSearchEngine`. -/
structure IndexState where
  m_fileNameTrie : TrieNode
  m_pathToMetadata : List (Str × FileMetadata)
  m_extensionToFiles : List (Str × List Str)

/-- The indices as `initializeIndex` resets them (and as the constructor leaves them). -/
def IndexState.empty : IndexState :=
  { m_fileNameTrie := TrieNode.empty, m_pathToMetadata := [], m_extensionToFiles := [] }

/-! ## `addFileToIndex` -/

/-- The trie loop of `addFileToIndex` (lines 159-168): descend along the
lower-cased bytes of `filename`, creating missing children, then mark the
final node and append `path` to its `filePaths`. -/
def trieInsert : Str → Str → TrieNode → TrieNode
  | [], path, .mk ch _ fp => .mk ch true (fp ++ [path])
  | c :: cs, path, .mk ch e fp =>
    .mk (mapUpdate (tolower c) TrieNode.empty (trieInsert cs path) ch) e fp

/-- The extension-map block of `addFileToIndex` (lines 149-156). -/
def extensionInsert (extension path : Str) (m : List (Str × List Str)) : List (Str × List Str) :=
  let lowerExt := toLowerStr extension
  if lowerExt ≠ [] then
    mapUpdate (stripDot lowerExt) [] (fun v => v ++ [path]) m
  else m

/-- The method `FileSearchEngine::addFileToIndex`.  The source never reads its
`filePath` argument, only `metadata`. -/
def addFileToIndex (metadata : FileMetadata) (s : IndexState) : IndexState :=
  let filename := metadata.name
  let path := metadata.path
  let extension := metadata.extension
  { m_pathToMetadata := mapAssign path metadata s.m_pathToMetadata
    m_extensionToFiles := extensionInsert extension path s.m_extensionToFiles
    m_fileNameTrie := trieInsert filename path s.m_fileNameTrie }

/-- The index reached from the empty indices by calling `addFileToIndex` on
`files`, first to last. -/
def indexOf (files : List FileMetadata) : IndexState :=
  files.foldl (fun s m => addFileToIndex m s) IndexState.empty

/-! ## `findInTrie`, `matchesFilters`, `search` -/

/-- The descent loop of `findInTrie` (lines 232-237) on an already lower-cased
key; `none` is the early `return results`. -/
def trieDescend : Str → TrieNode → Option TrieNode
  | [], t => some t
  | c :: cs, .mk ch _ _ =>
    match mapFind c ch with
    | none => none
    | some t => trieDescend cs t

mutual
/-- The lambda `collectPaths` of `findInTrie` (lines 240-249). -/
def collectPaths : TrieNode → List Str
  | .mk ch e fp => (if e then fp else []) ++ collectChildren ch
/-- The loop over `node->children` inside `collectPaths`. -/
def collectChildren : List (Nat × TrieNode) → List Str
  | [] => []
  | (_, t) :: rest => collectPaths t ++ collectChildren rest
end

/-- The method `FileSearchEngine::findInTrie`. -/
def findInTrie (s : IndexState) (pfx : Str) : List Str :=
  let lowerPfx := toLowerStr pfx
  match trieDescend lowerPfx s.m_fileNameTrie with
  | none => []
  | some current => collectPaths current

/-- The method `FileSearchEngine::matchesFilters`. -/
def matchesFilters (file : FileMetadata) (fileType : Str) (minSize maxSize : Nat)
    (minDate maxDate : Int) : Bool :=
  if file.size < minSize ∨ file.size > maxSize then false
  else if file.lastModified < minDate ∨ file.lastModified > maxDate then false
  else if fileType ≠ [] then
    let extension := toLowerStr (stripDot file.extension)
    let lowerType := toLowerStr fileType
    if extension ≠ lowerType then false else true
  else true

/-- One insertion step of the sort: `x` goes before the first element that
the comparator `a.name < b.name` puts after it. -/
def insertByName (x : FileMetadata) : List FileMetadata → List FileMetadata
  | [] => [x]
  | y :: ys => if strLt x.name y.name then x :: y :: ys else y :: insertByName x ys

/-- The call `std::sort(results.begin(), results.end(), cmp)` with
`cmp(a, b) = a.name < b.name` (lines 217-219). -/
def sortByName (l : List FileMetadata) : List FileMetadata :=
  l.foldr insertByName []

/-- The candidate-selection part of `search` (lines 180-202). -/
def matchingPaths (s : IndexState) (query fileType : Str) (minSize maxSize : Nat)
    (minDate maxDate : Int) : List Str :=
  if query = [] ∧ fileType = [] ∧ minSize = 0 ∧ maxSize = UINT64_MAX ∧ minDate = 0 ∧
      maxDate = INT64_MAX then
    (s.m_pathToMetadata.map Prod.fst).take 1000
  else if query ≠ [] then
    findInTrie s query
  else if fileType ≠ [] then
    let lowerType := toLowerStr fileType
    match mapFind lowerType s.m_extensionToFiles with
    | some v => v
    | none => []
  else []

/-- The body of the filter loop of `search` (lines 206-214) for one candidate path. -/
def filterPath (s : IndexState) (fileType : Str) (minSize maxSize : Nat)
    (minDate maxDate : Int) (path : Str) : Option FileMetadata :=
  match mapFind path s.m_pathToMetadata with
  | some metadata =>
    if matchesFilters metadata fileType minSize maxSize minDate maxDate then some metadata
    else none
  | none => none

/-- The method `FileSearchEngine::search`. -/
def search (s : IndexState) (query fileType : Str) (minSize maxSize : Nat)
    (minDate maxDate : Int) : List FileMetadata :=
  let results :=
    (matchingPaths s query fileType minSize maxSize minDate maxDate).filterMap
      (filterPath s fileType minSize maxSize minDate maxDate)
  sortByName results

/-! ## The directory walker (`initializeIndex`, `workerFunction`) -/

/-- What a path denotes for `workerFunction`: a regular file, with the
record lines 97-113 build for it; a directory, with its entries in the order
`directory_iterator` yields them; or something that is neither. -/
inductive DirEntry where
  | file (metadata : FileMetadata)
  | dir (entries : List DirEntry)
  | other

/-- The entries the loop at line 85 runs over for a popped path: those of a
directory, none when `fs::is_directory(currentPath)` is false. -/
def DirEntry.entries : DirEntry → List DirEntry
  | .dir es => es
  | _ => []

/-- Where a worker thread stands in `workerFunction`. -/
inductive WorkerPc where
  /-- At the loop head or inside `m_queueCondition.wait` (lines 59-68). -/
  | waiting
  /-- Between the pop (line 79) and the check block (line 124), with the
  directory entries still to be visited. -/
  | enumerating (pending : List DirEntry)
  /-- Left the loop. -/
  | exited

/-- A worker thread: its position, and a history counter of how often it has
executed `--m_activeWorkers` (line 127). -/
structure Worker where
  pc : WorkerPc
  decrements : Nat

/-- The engine during an indexing pass.  `m_indexingProgress` only ever holds
the values `0.0` and `1.0`, written here `0` and `1`; the queue holds, for
each queued path, what that path denotes. -/
structure EngineState where
  index : IndexState
  m_isIndexing : Bool
  m_indexingProgress : Nat
  m_cancelIndexingRequested : Bool
  m_workQueue : List DirEntry
  m_activeWorkers : Int
  workers : List Worker

/-- The method `FileSearchEngine::initializeIndex` on an engine that is not
indexing, with `hardware_concurrency` the value
`std::thread::hardware_concurrency()` returns and `rootPath` what the root
path denotes. -/
def initializeIndex (hardware_concurrency : Nat) (rootPath : DirEntry) : EngineState :=
  let numThreads := if hardware_concurrency > 0 then hardware_concurrency else 4
  { index := IndexState.empty
    m_isIndexing := true
    m_indexingProgress := 0
    m_cancelIndexingRequested := false
    m_workQueue := [rootPath]
    m_activeWorkers := numThreads
    workers := List.replicate numThreads { pc := .waiting, decrements := 0 } }

/-- One atomic step of worker `i` in `workerFunction`, or `none` when the
worker cannot move (it is blocked in the wait, or has exited, or does not
exist).  The steps are: the wait and pop (lines 63-80), one iteration of the
entry loop (lines 85-117), and the check block (lines 124-134).  The test of
the loop head (line 59) is taken together with the wait that follows it.
Filesystem errors are not part of the model: a directory yields exactly its
entries. -/
def workerStep (i : Nat) (s : EngineState) : Option EngineState :=
  match s.workers.get? i with
  | none => none
  | some w =>
    match w.pc with
    | .exited => none
    | .waiting =>
      if s.m_cancelIndexingRequested then
        some { s with workers := s.workers.set i { w with pc := .exited } }
      else
        match s.m_workQueue with
        | [] => none
        | currentPath :: rest =>
          some { s with
            m_workQueue := rest
            workers := s.workers.set i { w with pc := .enumerating currentPath.entries } }
    | .enumerating (entry :: pending) =>
      if s.m_cancelIndexingRequested then
        some { s with workers := s.workers.set i { w with pc := .enumerating [] } }
      else
        match entry with
        | .dir _ =>
          some { s with
            m_workQueue := s.m_workQueue ++ [entry]
            workers := s.workers.set i { w with pc := .enumerating pending } }
        | .file metadata =>
          some { s with
            index := addFileToIndex metadata s.index
            workers := s.workers.set i { w with pc := .enumerating pending } }
        | .other =>
          some { s with workers := s.workers.set i { w with pc := .enumerating pending } }
    | .enumerating [] =>
      match s.m_workQueue with
      | [] =>
        if s.m_activeWorkers - 1 = 0 then
          some { s with
            m_activeWorkers := s.m_activeWorkers - 1
            m_isIndexing := false
            m_indexingProgress := 1
            workers := s.workers.set i { pc := .exited, decrements := w.decrements + 1 } }
        else
          some { s with
            m_activeWorkers := s.m_activeWorkers - 1
            workers := s.workers.set i { pc := .waiting, decrements := w.decrements + 1 } }
      | _ :: _ =>
        some { s with workers := s.workers.set i { w with pc := .waiting } }

/-- Run the workers in the order a schedule names them; `none` when the
schedule names a worker that cannot move. -/
def runSchedule : List Nat → EngineState → Option EngineState
  | [], s => some s
  | i :: rest, s =>
    match workerStep i s with
    | none => none
    | some s' => runSchedule rest s'

/-- The worker is blocked in `m_queueCondition.wait`. -/
def WorkerPc.isWaiting : WorkerPc → Bool
  | .waiting => true
  | _ => false

/-- The worker is between popping a directory and its check block. -/
def WorkerPc.isEnumerating : WorkerPc → Bool
  | .enumerating _ => true
  | _ => false

/-- The regular files among the entries a worker has still to visit. -/
def WorkerPc.pendingFiles : WorkerPc → List FileMetadata
  | .enumerating pending =>
    pending.filterMap (fun e => match e with
      | .file m => some m
      | _ => none)
  | _ => []

/-! ## Definitions used in the proofs -/

/-- Representation invariant of the trie: a node that is not marked
`isEndOfWord` has an empty `filePaths`, at every node. -/
inductive TrieWF : TrieNode → Prop where
  | mk (ch : List (Nat × TrieNode)) (e : Bool) (fp : List Str) :
      (e = false → fp = []) → (∀ kt ∈ ch, TrieWF kt.2) → TrieWF (.mk ch e fp)

/-- The paths `findInTrie` collects below the node reached by an already
lower-cased key. -/
def subtreePaths (key : Str) (t : TrieNode) : List Str :=
  match trieDescend key t with
  | none => []
  | some current => collectPaths current

/-! ## The cross-index invariant -/

mutual
/-- Every node of a trie with its position (the bytes on the way from the
root to it), its `isEndOfWord` flag and its `filePaths`. -/
def nodeData : TrieNode → List (Str × Bool × List Str)
  | .mk ch e fp => ([], e, fp) :: childData ch
/-- The nodes below the children of a node, positions starting with the
child's byte. -/
def childData : List (Nat × TrieNode) → List (Str × Bool × List Str)
  | [] => []
  | (c, t) :: rest => (nodeData t).map (fun x => (c :: x.1, x.2)) ++ childData rest
end

/-- Every path stored in some node of the trie, with repetitions. -/
def triePaths (t : TrieNode) : List Str :=
  (nodeData t).flatMap (fun x => x.2.2)

/-- Every path listed in the ExtensionMap, with repetitions. -/
def extensionPaths (m : List (Str × List Str)) : List Str :=
  m.flatMap (fun kv => kv.2)

/-- What `std::unordered_map` guarantees of `TrieNode::children`: the keys of
the children are pairwise distinct, at every node. -/
inductive TrieKeysUnique : TrieNode → Prop where
  | mk (ch : List (Nat × TrieNode)) (e : Bool) (fp : List Str) :
      (ch.map Prod.fst).Nodup → (∀ kt ∈ ch, TrieKeysUnique kt.2) → TrieKeysUnique (.mk ch e fp)

/-- Cross-index consistency of the three indices.
* `childKeys`: the children maps of the trie have distinct keys.
* `trie`: every path in the `filePaths` of a trie node is a key of PathMap,
  the node is terminal, its position is the lower-cased name stored in
  PathMap for the path, and descending that lower-cased name from the root
  reaches the node.
* `extension`: every path listed in ExtensionMap under key `e` is a key of
  PathMap and the extension stored there, lower-cased and with one leading
  dot stripped, is `e`.
* `trieOnce`, `extensionAtMostOnce`: every key of PathMap occurs exactly once
  among the paths of the trie and at most once among those of ExtensionMap. -/
structure CrossIndexInv (s : IndexState) : Prop where
  childKeys : TrieKeysUnique s.m_fileNameTrie
  trie : ∀ x ∈ nodeData s.m_fileNameTrie, ∀ p ∈ x.2.2,
    ∃ m, mapFind p s.m_pathToMetadata = some m ∧ x.2.1 = true ∧ x.1 = toLowerStr m.name ∧
      ∃ ch, trieDescend (toLowerStr m.name) s.m_fileNameTrie = some (.mk ch x.2.1 x.2.2)
  extension : ∀ kv ∈ s.m_extensionToFiles, ∀ p ∈ kv.2,
    ∃ m, mapFind p s.m_pathToMetadata = some m ∧ stripDot (toLowerStr m.extension) = kv.1
  trieOnce : ∀ p m, mapFind p s.m_pathToMetadata = some m →
    (triePaths s.m_fileNameTrie).count p = 1
  extensionAtMostOnce : ∀ p m, mapFind p s.m_pathToMetadata = some m →
    (extensionPaths s.m_extensionToFiles).count p ≤ 1

/-! ## Example data -/

/-- The bytes of an ASCII string literal. -/
def bytes (s : String) : Str := s.toList.map Char.toNat

/-- A regular file as `workerFunction` builds its record (lines 97-108) from the
directory, the file name and the extension that `path::extension` reports. -/
def mkFile (dir name ext : String) (size : Nat) (lastModified : Int) : FileMetadata :=
  { path := bytes (dir ++ "/" ++ name), name := bytes name, extension := bytes ext,
    size := size, lastModified := lastModified, isDirectory := false }

/-- The tree of scenarios S1-S3: `/r/Alpha.txt`, `/r/alphabet.md`, `/r/beta.txt`
of 100 bytes each and `/r/big.txt` of 10000 bytes. -/
def scenarioFiles : List FileMetadata :=
  [mkFile "/r" "Alpha.txt" ".txt" 100 1700000000,
   mkFile "/r" "alphabet.md" ".md" 100 1700000000,
   mkFile "/r" "beta.txt" ".txt" 100 1700000000,
   mkFile "/r" "big.txt" ".txt" 10000 1700000000]

/-- The file of scenario S6: `/r/FooBar.TXT`. -/
def fooBar : FileMetadata := mkFile "/r" "FooBar.TXT" ".TXT" 100 1700000000

/-- A regular file `/r/old.txt` last written one second before the Unix epoch. -/
def preEpochFile : FileMetadata := mkFile "/r" "old.txt" ".txt" 100 (-1)

/-- A regular file `/r/foo.`, for which `path::extension` reports `"."`. -/
def trailingDotFile : FileMetadata := mkFile "/r" "foo." "." 100 1700000000

/-- A root directory without entries. -/
def emptyRoot : DirEntry := .dir []

/-- The file `/r/d/late.txt`. -/
def lateFile : FileMetadata := mkFile "/r/d" "late.txt" ".txt" 100 1700000000

/-- The tree `/r/d/d2/` plus the file `/r/d/late.txt`, listed after `d2`. -/
def nestedRoot : DirEntry := .dir [.dir [.dir [], .file lateFile]]

/-- The states a pass over a root without entries can be in, with `n` the
initial value of `m_activeWorkers`: the root is queued and every worker
waits; or the queue is empty and one worker stands at its check block while
the others wait; or the queue is empty, the counter is `n - 1` and every
worker waits.  In all of them `isIndexing` is true and progress is 0. -/
def EmptyRootInv (n : Int) (s : EngineState) : Prop :=
  s.m_isIndexing = true ∧ s.m_indexingProgress = 0 ∧ s.m_cancelIndexingRequested = false ∧
  ((s.m_workQueue = [emptyRoot] ∧ s.m_activeWorkers = n ∧
      ∀ w ∈ s.workers, w.pc.isWaiting = true) ∨
   (s.m_workQueue = [] ∧ s.m_activeWorkers = n ∧
      ∃ i, ∀ j w, s.workers.get? j = some w →
        (j = i → w.pc = WorkerPc.enumerating []) ∧ (j ≠ i → w.pc.isWaiting = true)) ∨
   (s.m_workQueue = [] ∧ s.m_activeWorkers = n - 1 ∧
      ∀ w ∈ s.workers, w.pc.isWaiting = true))

/-! ## The string order -/

theorem strLt_asymm : ∀ (a b : Str), strLt a b = true → strLt b a = false
  | [], [], _ => rfl
  | [], _ :: _, _ => rfl
  | _ :: _, [], h => by simp [strLt] at h
  | x :: xs, y :: ys, h => by
    simp only [strLt] at h ⊢
    by_cases hxy : x < y
    · have hyx : ¬ y < x := by omega
      simp [hyx, hxy]
    · by_cases hyx : y < x
      · simp [hxy, hyx] at h
      · simp only [hxy, hyx, if_false] at h ⊢
        exact strLt_asymm xs ys h

theorem strLt_trans : ∀ (a b c : Str), strLt a b = true → strLt b c = true → strLt a c = true
  | [], _, [], _, h2 => by cases ‹Str› <;> simp [strLt] at h2
  | [], _, _ :: _, _, _ => rfl
  | _ :: _, [], _, h1, _ => by simp [strLt] at h1
  | _ :: _, _ :: _, [], _, h2 => by simp [strLt] at h2
  | x :: xs, y :: ys, z :: zs, h1, h2 => by
    simp only [strLt] at h1 h2 ⊢
    by_cases hxy : x < y
    · by_cases hyz : y < z
      · have : x < z := by omega
        simp [this]
      · by_cases hzy : z < y
        · simp [hyz, hzy] at h2
        · have : x < z := by omega
          simp [this]
    · by_cases hyx : y < x
      · simp [hxy, hyx] at h1
      · have hxy' : x = y := by omega
        subst hxy'
        simp only [hxy, if_false] at h1
        by_cases hxz : x < z
        · simp [hxz]
        · by_cases hzx : z < x
          · simp [hxz, hzx] at h2
          · simp only [hxz, hzx, if_false] at h2 ⊢
            exact strLt_trans xs ys zs h1 h2

theorem cons_lt_cons_iff (x y : Nat) (xs ys : Str) :
    x :: xs < y :: ys ↔ x < y ∨ (x = y ∧ xs < ys) := by
  constructor
  · intro h
    cases h with
    | rel h => exact Or.inl h
    | cons h => exact Or.inr ⟨rfl, h⟩
  · rintro (h | ⟨rfl, h⟩)
    · exact List.Lex.rel h
    · exact List.Lex.cons h

/-- The model of `operator<` is the lexicographic order of byte lists. -/
theorem strLt_iff_lt (a b : Str) : strLt a b = true ↔ a < b := by
  induction a generalizing b with
  | nil =>
    cases b with
    | nil => simp [strLt]
    | cons y ys => simp only [strLt, true_iff]; exact List.Lex.nil
  | cons x xs ih =>
    cases b with
    | nil =>
      simp only [strLt, Bool.false_eq_true, false_iff]
      intro h; cases h
    | cons y ys =>
      rw [cons_lt_cons_iff, ← ih]
      simp only [strLt]
      by_cases hxy : x < y
      · simp [hxy]
      · by_cases hyx : y < x
        · have : x ≠ y := by omega
          simp [hxy, hyx, this]
        · have : x = y := by omega
          simp [hxy, this]

/-! ## The sort -/

theorem insertByName_perm (x : FileMetadata) (l : List FileMetadata) :
    (insertByName x l).Perm (x :: l) := by
  induction l with
  | nil => exact List.Perm.refl _
  | cons y ys ih =>
    simp only [insertByName]
    split
    · exact List.Perm.refl _
    · exact (List.Perm.cons y ih).trans (List.Perm.swap x y ys)

theorem sortByName_perm (l : List FileMetadata) : (sortByName l).Perm l := by
  induction l with
  | nil => exact List.Perm.refl _
  | cons x xs ih =>
    show (insertByName x (sortByName xs)).Perm (x :: xs)
    exact (insertByName_perm x _).trans (List.Perm.cons x ih)

theorem insertByName_sorted (x : FileMetadata) (l : List FileMetadata)
    (h : l.Pairwise (fun a b => strLt b.name a.name = false)) :
    (insertByName x l).Pairwise (fun a b => strLt b.name a.name = false) := by
  induction l with
  | nil => simp [insertByName]
  | cons y ys ih =>
    rw [List.pairwise_cons] at h
    simp only [insertByName]
    by_cases hxy : strLt x.name y.name = true
    · rw [if_pos hxy]
      refine List.pairwise_cons.2 ⟨?_, List.pairwise_cons.2 h⟩
      intro z hz
      rcases List.mem_cons.1 hz with rfl | hz
      · exact strLt_asymm _ _ hxy
      · cases hzx : strLt z.name x.name with
        | false => rfl
        | true =>
          have := strLt_trans _ _ _ hzx hxy
          rw [h.1 z hz] at this
          exact absurd this (by decide)
    · rw [if_neg hxy]
      refine List.pairwise_cons.2 ⟨?_, ih h.2⟩
      intro z hz
      rcases List.mem_cons.1 ((insertByName_perm x ys).subset hz) with rfl | hz
      · simpa using hxy
      · exact h.1 z hz

theorem sortByName_sorted (l : List FileMetadata) :
    (sortByName l).Pairwise (fun a b => strLt b.name a.name = false) := by
  induction l with
  | nil => exact List.Pairwise.nil
  | cons x xs ih => exact insertByName_sorted x _ ih

/-! ## The containers -/

theorem mapFind_mapUpdate_self {α β : Type} [DecidableEq α] (k : α) (d : β) (f : β → β)
    (m : List (α × β)) :
    mapFind k (mapUpdate k d f m) = some (f ((mapFind k m).getD d)) := by
  induction m with
  | nil => simp [mapUpdate, mapFind]
  | cons kv rest ih =>
    obtain ⟨k', v⟩ := kv
    by_cases h : k' = k
    · simp [mapUpdate, mapFind, h]
    · simp [mapUpdate, mapFind, h, ih]

theorem mapFind_mapUpdate_ne {α β : Type} [DecidableEq α] (k k' : α) (d : β) (f : β → β)
    (m : List (α × β)) (hne : k ≠ k') :
    mapFind k' (mapUpdate k d f m) = mapFind k' m := by
  induction m with
  | nil => simp [mapUpdate, mapFind, hne]
  | cons kv rest ih =>
    obtain ⟨k2, v⟩ := kv
    by_cases h : k2 = k
    · subst h
      simp [mapUpdate, mapFind, hne]
    · simp only [mapUpdate, mapFind, h, if_false]
      by_cases h2 : k2 = k'
      · simp [h2]
      · simp [h2, ih]

theorem mapFind_mem {α β : Type} [DecidableEq α] (k : α) (v : β) (m : List (α × β))
    (h : mapFind k m = some v) : (k, v) ∈ m := by
  induction m with
  | nil => simp [mapFind] at h
  | cons kv rest ih =>
    obtain ⟨k', v'⟩ := kv
    by_cases hk : k' = k
    · simp only [mapFind, hk, if_true, Option.some.injEq] at h
      subst hk; subst h
      exact List.mem_cons_self _ _
    · simp only [mapFind, hk, if_false] at h
      exact List.mem_cons_of_mem _ (ih h)

theorem mapUpdate_forall {α β : Type} [DecidableEq α] (P : β → Prop) (k : α) (d : β)
    (f : β → β) (m : List (α × β)) (hd : P (f d)) (hf : ∀ v, P v → P (f v))
    (hm : ∀ kv ∈ m, P kv.2) : ∀ kv ∈ mapUpdate k d f m, P kv.2 := by
  induction m with
  | nil =>
    intro kv hkv
    simp only [mapUpdate, List.mem_singleton] at hkv
    subst hkv
    exact hd
  | cons kv rest ih =>
    obtain ⟨k', v⟩ := kv
    have hv : P v := hm (k', v) (List.mem_cons_self _ _)
    have hrest : ∀ kv ∈ rest, P kv.2 := fun kv h => hm kv (List.mem_cons_of_mem _ h)
    intro kv hkv
    by_cases hk : k' = k
    · simp only [mapUpdate, hk, if_true, List.mem_cons] at hkv
      rcases hkv with rfl | hkv
      · exact hf v hv
      · exact hrest kv hkv
    · simp only [mapUpdate, hk, if_false, List.mem_cons] at hkv
      rcases hkv with rfl | hkv
      · exact hv
      · exact ih hrest kv hkv

theorem mapAssign_of_not_mem {α β : Type} [DecidableEq α] (k : α) (v : β) (m : List (α × β))
    (h : k ∉ m.map Prod.fst) : mapAssign k v m = m ++ [(k, v)] := by
  induction m with
  | nil => rfl
  | cons kv rest ih =>
    obtain ⟨k', v'⟩ := kv
    simp only [List.map_cons, List.mem_cons, not_or] at h
    have hk : ¬ k' = k := fun e => h.1 e.symm
    simp [mapAssign, hk, ih h.2]

/-! ## The trie -/

theorem collectPaths_mk (ch : List (Nat × TrieNode)) (e : Bool) (fp : List Str) :
    collectPaths (.mk ch e fp) = (if e then fp else []) ++ collectChildren ch := by
  rw [collectPaths]

theorem collectChildren_cons (k : Nat) (t : TrieNode) (rest : List (Nat × TrieNode)) :
    collectChildren ((k, t) :: rest) = collectPaths t ++ collectChildren rest := by
  rw [collectChildren]

theorem collectChildren_nil : collectChildren [] = [] := by
  rw [collectChildren]

theorem collectPaths_empty : collectPaths TrieNode.empty = [] := by
  simp [TrieNode.empty, collectPaths_mk, collectChildren_nil]

theorem TrieWF_empty : TrieWF TrieNode.empty :=
  TrieWF.mk [] false [] (fun _ => rfl) (fun _ h => absurd h (List.not_mem_nil _))

theorem TrieWF_trieInsert (name path : Str) :
    ∀ t, TrieWF t → TrieWF (trieInsert name path t) := by
  induction name with
  | nil =>
    intro t ht
    cases ht with
    | mk ch e fp h1 h2 =>
      exact TrieWF.mk _ _ _ (fun h => by cases h) h2
  | cons c cs ih =>
    intro t ht
    cases ht with
    | mk ch e fp h1 h2 =>
      exact TrieWF.mk _ _ _ h1
        (mapUpdate_forall TrieWF _ _ _ ch (ih _ TrieWF_empty) ih h2)

theorem collectChildren_mapUpdate (c : Nat) (f : TrieNode → TrieNode) (p : Str)
    (hf : ∀ t, TrieWF t → (collectPaths (f t)).Perm (p :: collectPaths t))
    (ch : List (Nat × TrieNode)) (hch : ∀ kt ∈ ch, TrieWF kt.2) :
    (collectChildren (mapUpdate c TrieNode.empty f ch)).Perm (p :: collectChildren ch) := by
  induction ch with
  | nil =>
    have := hf _ TrieWF_empty
    rw [collectPaths_empty] at this
    simpa [mapUpdate, collectChildren_cons, collectChildren_nil] using this
  | cons kt rest ih =>
    obtain ⟨k, t⟩ := kt
    have ht : TrieWF t := hch (k, t) (List.mem_cons_self _ _)
    have hrest : ∀ kt ∈ rest, TrieWF kt.2 := fun kt h => hch kt (List.mem_cons_of_mem _ h)
    by_cases hk : k = c
    · simp only [mapUpdate, hk, if_true, collectChildren_cons]
      exact List.Perm.append_right _ (hf t ht)
    · simp only [mapUpdate, hk, if_false, collectChildren_cons]
      exact (List.Perm.append_left _ (ih hrest)).trans List.perm_middle

theorem collectPaths_trieInsert (name path : Str) :
    ∀ t, TrieWF t → (collectPaths (trieInsert name path t)).Perm (path :: collectPaths t) := by
  induction name with
  | nil =>
    intro t ht
    cases ht with
    | mk ch e fp h1 h2 =>
      simp only [trieInsert, collectPaths_mk, if_true]
      cases e with
      | true =>
        simp only [if_true]
        rw [List.append_assoc]
        exact (List.perm_middle).trans (List.Perm.refl _)
      | false =>
        rw [h1 rfl]
        simp
  | cons c cs ih =>
    intro t ht
    cases ht with
    | mk ch e fp h1 h2 =>
      simp only [trieInsert, collectPaths_mk]
      exact (List.Perm.append_left _
        (collectChildren_mapUpdate (tolower c) _ path ih ch h2)).trans List.perm_middle

theorem TrieWF_mapFind (c : Nat) (ch : List (Nat × TrieNode)) (hch : ∀ kt ∈ ch, TrieWF kt.2) :
    TrieWF ((mapFind c ch).getD TrieNode.empty) := by
  cases h : mapFind c ch with
  | none => exact TrieWF_empty
  | some t => exact hch (c, t) (mapFind_mem c t ch h)

theorem subtreePaths_empty (key : Str) : subtreePaths key TrieNode.empty = [] := by
  cases key with
  | nil => simp [subtreePaths, trieDescend, collectPaths_empty]
  | cons k ks => simp [subtreePaths, trieDescend, TrieNode.empty, mapFind]

theorem subtreePaths_cons (k : Nat) (ks : Str) (ch : List (Nat × TrieNode)) (e : Bool)
    (fp : List Str) :
    subtreePaths (k :: ks) (.mk ch e fp) =
      subtreePaths ks ((mapFind k ch).getD TrieNode.empty) := by
  cases h : mapFind k ch with
  | none =>
    rw [Option.getD_none, subtreePaths_empty ks]
    simp [subtreePaths, trieDescend, h]
  | some t => simp [subtreePaths, trieDescend, h]

/-- Inserting a name adds its path to the subtree below `key` exactly when
`key` is a prefix of the lower-cased name. -/
theorem subtreePaths_trieInsert (key : Str) :
    ∀ (name path : Str) (t : TrieNode), TrieWF t →
      (subtreePaths key (trieInsert name path t)).Perm
        (if key <+: toLowerStr name then path :: subtreePaths key t
          else subtreePaths key t) := by
  induction key with
  | nil =>
    intro name path t ht
    simp only [List.nil_prefix, if_true]
    exact collectPaths_trieInsert name path t ht
  | cons k ks ih =>
    intro name path t ht
    cases ht with
    | mk ch e fp h1 h2 =>
      cases name with
      | nil =>
        have : ¬ (k :: ks <+: toLowerStr []) := by simp [toLowerStr]
        rw [if_neg this]
        simp only [trieInsert, subtreePaths_cons]
        exact List.Perm.refl _
      | cons c cs =>
        simp only [trieInsert, subtreePaths_cons]
        by_cases hk : k = tolower c
        · subst hk
          rw [mapFind_mapUpdate_self]
          simp only [Option.getD_some]
          have := ih cs path _ (TrieWF_mapFind (tolower c) ch h2)
          simpa [toLowerStr, List.cons_prefix_cons] using this
        · rw [mapFind_mapUpdate_ne _ _ _ _ _ (fun e => hk e.symm)]
          have : ¬ (k :: ks <+: toLowerStr (c :: cs)) := by
            simp [toLowerStr, List.cons_prefix_cons, hk]
          rw [if_neg this]

/-! ## The index built by `addFileToIndex` -/

theorem indexOf_snoc (files : List FileMetadata) (m : FileMetadata) :
    indexOf (files ++ [m]) = addFileToIndex m (indexOf files) := by
  simp [indexOf, List.foldl_append]

theorem indexOf_trieWF (files : List FileMetadata) : TrieWF (indexOf files).m_fileNameTrie := by
  induction files using List.reverseRecOn with
  | nil => exact TrieWF_empty
  | append_singleton fs m ih =>
    rw [indexOf_snoc]
    exact TrieWF_trieInsert _ _ _ ih

theorem findInTrie_indexOf (files : List FileMetadata) (q : Str) :
    (findInTrie (indexOf files) q).Perm
      ((files.filter (fun m => decide (toLowerStr q <+: toLowerStr m.name))).map
        FileMetadata.path) := by
  induction files using List.reverseRecOn with
  | nil =>
    have : findInTrie (indexOf []) q = subtreePaths (toLowerStr q) TrieNode.empty := rfl
    rw [this, subtreePaths_empty]
    exact List.Perm.refl _
  | append_singleton fs m ih =>
    have h1 : findInTrie (indexOf (fs ++ [m])) q =
        subtreePaths (toLowerStr q) (trieInsert m.name m.path (indexOf fs).m_fileNameTrie) := by
      rw [indexOf_snoc]; rfl
    have h2 : findInTrie (indexOf fs) q =
        subtreePaths (toLowerStr q) (indexOf fs).m_fileNameTrie := rfl
    rw [h1]
    rw [h2] at ih
    have h3 := subtreePaths_trieInsert (toLowerStr q) m.name m.path _ (indexOf_trieWF fs)
    refine h3.trans ?_
    rw [List.filter_append, List.map_append]
    by_cases hp : toLowerStr q <+: toLowerStr m.name
    · rw [if_pos hp]
      have : List.filter (fun m => decide (toLowerStr q <+: toLowerStr m.name)) [m] = [m] := by
        simp [hp]
      rw [this]
      exact (List.Perm.cons _ ih).trans (List.perm_append_singleton _ _).symm
    · rw [if_neg hp]
      have : List.filter (fun m => decide (toLowerStr q <+: toLowerStr m.name)) [m] = [] := by
        simp [hp]
      rw [this]
      simpa using ih

theorem pathToMetadata_indexOf (files : List FileMetadata)
    (hnd : (files.map FileMetadata.path).Nodup) :
    (indexOf files).m_pathToMetadata = files.map (fun m => (m.path, m)) := by
  induction files using List.reverseRecOn with
  | nil => rfl
  | append_singleton fs m ih =>
    rw [List.map_append, List.nodup_append] at hnd
    have hfs := ih hnd.1
    have hm : m.path ∉ fs.map FileMetadata.path := by
      intro h
      exact hnd.2.2 h (by simp)
    rw [indexOf_snoc]
    show mapAssign m.path m (indexOf fs).m_pathToMetadata = _
    rw [hfs, mapAssign_of_not_mem]
    · simp
    · simpa [List.map_map] using hm

theorem mapFind_pathList_mem (files : List FileMetadata) (p : Str) (m : FileMetadata)
    (h : mapFind p (files.map (fun m => (m.path, m))) = some m) : m ∈ files ∧ m.path = p := by
  have := mapFind_mem p m _ h
  rw [List.mem_map] at this
  obtain ⟨m', hm', he⟩ := this
  simp only [Prod.mk.injEq] at he
  obtain ⟨h1, h2⟩ := he
  subst h2
  exact ⟨hm', h1⟩

theorem mapFind_pathList_self (files : List FileMetadata)
    (hnd : (files.map FileMetadata.path).Nodup) (m : FileMetadata) (hm : m ∈ files) :
    mapFind m.path (files.map (fun m => (m.path, m))) = some m := by
  induction files with
  | nil => exact absurd hm (List.not_mem_nil _)
  | cons x xs ih =>
    rw [List.map_cons, List.nodup_cons] at hnd
    rcases List.mem_cons.1 hm with rfl | hm
    · simp [mapFind]
    · have hne : ¬ x.path = m.path := by
        intro e
        exact hnd.1 (e ▸ List.mem_map_of_mem _ hm)
      simp only [List.map_cons, mapFind, hne, if_false]
      exact ih hnd.2 hm

theorem extensionToFiles_indexOf (files : List FileMetadata) (k : Str) :
    (mapFind k (indexOf files).m_extensionToFiles).getD [] =
      (files.filter (fun m => decide (toLowerStr m.extension ≠ [] ∧
        stripDot (toLowerStr m.extension) = k))).map FileMetadata.path := by
  induction files using List.reverseRecOn with
  | nil => rfl
  | append_singleton fs m ih =>
    rw [indexOf_snoc, List.filter_append, List.map_append, ← ih]
    show (mapFind k (extensionInsert m.extension m.path (indexOf fs).m_extensionToFiles)).getD [] = _
    unfold extensionInsert
    by_cases he : toLowerStr m.extension = []
    · simp [he]
    · by_cases hk : stripDot (toLowerStr m.extension) = k
      · subst hk
        simp [he, mapFind_mapUpdate_self]
      · simp [he, hk, mapFind_mapUpdate_ne _ _ _ _ _ hk]

/-! ## `matchesFilters` and the filter loop -/

theorem tolower_eq_dot (c : Nat) : tolower c = 46 ↔ c = 46 := by
  unfold tolower
  split <;> omega

theorem toLowerStr_stripDot (e : Str) : toLowerStr (stripDot e) = stripDot (toLowerStr e) := by
  cases e with
  | nil => rfl
  | cons c t =>
    by_cases hc : c = 46
    · subst hc
      simp [stripDot, toLowerStr, tolower]
    · have : ¬ tolower c = 46 := fun h => hc ((tolower_eq_dot c).1 h)
      simp [stripDot, toLowerStr, hc, this]

theorem toLowerStr_eq_nil (s : Str) : toLowerStr s = [] ↔ s = [] := by
  simp [toLowerStr]

theorem matchesFilters_iff (file : FileMetadata) (fileType : Str) (minSize maxSize : Nat)
    (minDate maxDate : Int) :
    matchesFilters file fileType minSize maxSize minDate maxDate = true ↔
      (minSize ≤ file.size ∧ file.size ≤ maxSize) ∧
      (minDate ≤ file.lastModified ∧ file.lastModified ≤ maxDate) ∧
      (fileType ≠ [] → toLowerStr (stripDot file.extension) = toLowerStr fileType) := by
  unfold matchesFilters
  by_cases h1 : file.size < minSize ∨ file.size > maxSize
  · rw [if_pos h1]
    constructor
    · intro h; cases h
    · rintro ⟨⟨a, b⟩, _⟩
      omega
  · rw [if_neg h1]
    by_cases h2 : file.lastModified < minDate ∨ file.lastModified > maxDate
    · rw [if_pos h2]
      constructor
      · intro h; cases h
      · rintro ⟨_, ⟨a, b⟩, _⟩
        omega
    · rw [if_neg h2]
      have r1 : minSize ≤ file.size ∧ file.size ≤ maxSize := by omega
      have r2 : minDate ≤ file.lastModified ∧ file.lastModified ≤ maxDate := by omega
      by_cases h3 : fileType = []
      · simp [h3, r1, r2]
      · by_cases h4 : toLowerStr (stripDot file.extension) = toLowerStr fileType
        · simp [h3, h4, r1, r2]
        · simp [h3, h4]

/-- On an index built from files with pairwise distinct paths, the filter loop
keeps, from candidates that are the paths of some of the files, exactly the
files that pass `matchesFilters`. -/
theorem filterLoop_indexOf (files : List FileMetadata)
    (hnd : (files.map FileMetadata.path).Nodup) (fl : List FileMetadata)
    (hfl : ∀ m ∈ fl, m ∈ files) (cands : List Str)
    (hc : cands.Perm (fl.map FileMetadata.path))
    (fileType : Str) (minSize maxSize : Nat) (minDate maxDate : Int) :
    (cands.filterMap (filterPath (indexOf files) fileType minSize maxSize minDate maxDate)).Perm
      (fl.filter (fun m => matchesFilters m fileType minSize maxSize minDate maxDate)) := by
  refine (hc.filterMap _).trans ?_
  rw [List.filterMap_map]
  have : ∀ m ∈ fl, (filterPath (indexOf files) fileType minSize maxSize minDate maxDate ∘
      FileMetadata.path) m =
      (if matchesFilters m fileType minSize maxSize minDate maxDate then some m else none) := by
    intro m hm
    simp only [Function.comp, filterPath]
    rw [pathToMetadata_indexOf files hnd, mapFind_pathList_self files hnd m (hfl m hm)]
  rw [List.filterMap_congr this]
  have h2 : (fun m => if matchesFilters m fileType minSize maxSize minDate maxDate = true
      then some m else none) =
      Option.guard (fun m => matchesFilters m fileType minSize maxSize minDate maxDate = true) := by
    funext m
    simp [Option.guard]
  rw [h2, List.filterMap_eq_filter]

/-! ## Claims about `search` -/

theorem search_eq (s : IndexState) (query fileType : Str) (minSize maxSize : Nat)
    (minDate maxDate : Int) :
    search s query fileType minSize maxSize minDate maxDate =
      sortByName ((matchingPaths s query fileType minSize maxSize minDate maxDate).filterMap
        (filterPath s fileType minSize maxSize minDate maxDate)) := rfl

theorem matchingPaths_query (s : IndexState) (query fileType : Str) (minSize maxSize : Nat)
    (minDate maxDate : Int) (hq : query ≠ []) :
    matchingPaths s query fileType minSize maxSize minDate maxDate = findInTrie s query := by
  simp [matchingPaths, hq]

theorem matchingPaths_fileType (s : IndexState) (fileType : Str) (minSize maxSize : Nat)
    (minDate maxDate : Int) (hft : fileType ≠ []) :
    matchingPaths s [] fileType minSize maxSize minDate maxDate =
      (mapFind (toLowerStr fileType) s.m_extensionToFiles).getD [] := by
  simp only [matchingPaths, hft, false_and, and_false, if_false, ne_eq, not_true_eq_false,
    not_false_eq_true, if_true]
  cases mapFind (toLowerStr fileType) s.m_extensionToFiles <;> rfl

/-- C1. Prefix search is exact: on an index built by `addFileToIndex` from files
with pairwise distinct paths, a search with a non-empty query and an empty
fileType returns, up to order, exactly the inserted files whose lower-cased
name starts with the lower-cased query and whose size and date lie in the
ranges, each once; and it returns nothing when the lower-cased query cannot be
descended in the trie. -/
theorem C1_prefix_search_exact (files : List FileMetadata)
    (hnd : (files.map FileMetadata.path).Nodup) (q : Str) (hq : q ≠ [])
    (minSize maxSize : Nat) (minDate maxDate : Int) :
    (search (indexOf files) q [] minSize maxSize minDate maxDate).Perm
      (files.filter (fun m => decide (toLowerStr q <+: toLowerStr m.name ∧
        (minSize ≤ m.size ∧ m.size ≤ maxSize) ∧
        (minDate ≤ m.lastModified ∧ m.lastModified ≤ maxDate)))) ∧
    (trieDescend (toLowerStr q) (indexOf files).m_fileNameTrie = none →
      search (indexOf files) q [] minSize maxSize minDate maxDate = []) := by
  constructor
  · rw [search_eq, matchingPaths_query _ _ _ _ _ _ _ hq]
    refine (sortByName_perm _).trans ?_
    refine (filterLoop_indexOf files hnd _ (fun m hm => (List.mem_filter.1 hm).1) _
      (findInTrie_indexOf files q) [] minSize maxSize minDate maxDate).trans ?_
    rw [List.filter_filter]
    refine List.Perm.of_eq (List.filter_congr ?_)
    intro m _
    rw [Bool.eq_iff_iff]
    simp only [Bool.and_eq_true, decide_eq_true_eq, matchesFilters_iff]
    tauto
  · intro hnone
    rw [search_eq, matchingPaths_query _ _ _ _ _ _ _ hq]
    simp [findInTrie, hnone, sortByName]

/-- C2. Extension search is exact: on an index built by `addFileToIndex` from
files with pairwise distinct paths, a search with an empty query and a
non-empty fileType returns, up to order, exactly the inserted files whose
extension, lower-cased and with one leading dot stripped, equals the
lower-cased fileType and whose size and date lie in the ranges, each once.
(The claim's side condition that fileType has no leading dot is not needed.) -/
theorem C2_extension_search_exact (files : List FileMetadata)
    (hnd : (files.map FileMetadata.path).Nodup) (ft : Str) (hft : ft ≠ [])
    (minSize maxSize : Nat) (minDate maxDate : Int) :
    (search (indexOf files) [] ft minSize maxSize minDate maxDate).Perm
      (files.filter (fun m => decide (stripDot (toLowerStr m.extension) = toLowerStr ft ∧
        (minSize ≤ m.size ∧ m.size ≤ maxSize) ∧
        (minDate ≤ m.lastModified ∧ m.lastModified ≤ maxDate)))) := by
  rw [search_eq, matchingPaths_fileType _ _ _ _ _ _ hft]
  refine (sortByName_perm _).trans ?_
  refine (filterLoop_indexOf files hnd _ (fun m hm => (List.mem_filter.1 hm).1) _
    (List.Perm.of_eq (extensionToFiles_indexOf files (toLowerStr ft)))
    ft minSize maxSize minDate maxDate).trans ?_
  rw [List.filter_filter]
  refine List.Perm.of_eq (List.filter_congr ?_)
  intro m _
  rw [Bool.eq_iff_iff]
  simp only [Bool.and_eq_true, decide_eq_true_eq, matchesFilters_iff, toLowerStr_stripDot]
  have hne : toLowerStr ft ≠ [] := fun h => hft ((toLowerStr_eq_nil ft).1 h)
  constructor
  · rintro ⟨⟨h1, h2, h3⟩, _, h4⟩
    exact ⟨h4, h1, h2⟩
  · rintro ⟨h1, h2, h3⟩
    refine ⟨⟨h2, h3, fun _ => h1⟩, ?_, h1⟩
    intro he
    rw [he] at h1
    exact hne h1.symm

/-- C1, witness: scenario S1. On the scenario tree the query `"alp"` returns
the records named `Alpha.txt` and `alphabet.md`, in that order. -/
theorem C1_prefix_search_exact_witness :
    (scenarioFiles.map FileMetadata.path).Nodup ∧ bytes "alp" ≠ [] ∧
    ((search (indexOf scenarioFiles) (bytes "alp") [] 0 UINT64_MAX 0 INT64_MAX).Perm
      (scenarioFiles.filter (fun m => decide (toLowerStr (bytes "alp") <+: toLowerStr m.name ∧
        (0 ≤ m.size ∧ m.size ≤ UINT64_MAX) ∧
        ((0 : Int) ≤ m.lastModified ∧ m.lastModified ≤ INT64_MAX)))) ∧
     (trieDescend (toLowerStr (bytes "alp")) (indexOf scenarioFiles).m_fileNameTrie = none →
      search (indexOf scenarioFiles) (bytes "alp") [] 0 UINT64_MAX 0 INT64_MAX = [])) ∧
    (search (indexOf scenarioFiles) (bytes "alp") [] 0 UINT64_MAX 0 INT64_MAX).map
      FileMetadata.name = [bytes "Alpha.txt", bytes "alphabet.md"] :=
  ⟨by decide, by decide,
   C1_prefix_search_exact scenarioFiles (by decide) (bytes "alp") (by decide) 0 UINT64_MAX 0
     INT64_MAX,
   by decide⟩

/-- C2, witness: scenarios S2 and S3. On the scenario tree the fileType
`"txt"` with `minSize = 1000` returns the record named `big.txt` only. -/
theorem C2_extension_search_exact_witness :
    (scenarioFiles.map FileMetadata.path).Nodup ∧ bytes "txt" ≠ [] ∧
    (search (indexOf scenarioFiles) [] (bytes "txt") 1000 UINT64_MAX 0 INT64_MAX).Perm
      (scenarioFiles.filter (fun m => decide (stripDot (toLowerStr m.extension) =
          toLowerStr (bytes "txt") ∧
        (1000 ≤ m.size ∧ m.size ≤ UINT64_MAX) ∧
        ((0 : Int) ≤ m.lastModified ∧ m.lastModified ≤ INT64_MAX)))) ∧
    (search (indexOf scenarioFiles) [] (bytes "txt") 1000 UINT64_MAX 0 INT64_MAX).map
      FileMetadata.name = [bytes "big.txt"] :=
  ⟨by decide, by decide,
   C2_extension_search_exact scenarioFiles (by decide) (bytes "txt") (by decide) 1000 UINT64_MAX 0
     INT64_MAX,
   by decide⟩

theorem sortByName_nil : sortByName [] = [] := rfl

theorem filterMap_none {α β : Type} (f : α → Option β) (l : List α)
    (h : ∀ x ∈ l, f x = none) : l.filterMap f = [] := by
  induction l with
  | nil => rfl
  | cons x xs ih =>
    rw [List.filterMap_cons, h x (List.mem_cons_self _ _)]
    exact ih (fun y hy => h y (List.mem_cons_of_mem _ hy))

theorem stripDot_head_dot (e t : Str) (h : stripDot e = 46 :: t) : e.take 2 = [46, 46] := by
  cases e with
  | nil => simp [stripDot] at h
  | cons c r =>
    by_cases hc : c = 46
    · subst hc
      simp only [stripDot, if_true] at h
      subst h
      rfl
    · simp only [stripDot, hc, if_false] at h
      exact absurd (List.cons.inj h).1 hc

theorem toLowerStr_head_dot (e t : Str) (h : toLowerStr e = 46 :: t) :
    ∃ r, e = 46 :: r := by
  cases e with
  | nil => simp [toLowerStr] at h
  | cons c r =>
    simp only [toLowerStr, List.map_cons, List.cons.injEq] at h
    exact ⟨r, by rw [(tolower_eq_dot c).1 h.1]⟩

/-- C3, counterexample. On the scenario tree a search for fileType `".txt"`
returns nothing while the search for `"txt"` returns two records: the leading
dot of the argument is not stripped. -/
theorem C3_counterexample :
    bytes "txt" ≠ [] ∧ (bytes "txt").head? ≠ some 46 ∧
    search (indexOf scenarioFiles) [] (46 :: bytes "txt") 0 UINT64_MAX 0 INT64_MAX ≠
      search (indexOf scenarioFiles) [] (bytes "txt") 0 UINT64_MAX 0 INT64_MAX := by
  decide

/-- C3, amended. The fileType argument is lower-cased but a leading dot is not
stripped from it: on every index whose stored extensions do not begin with
two dots, a search whose fileType begins with a dot returns the empty list,
so it agrees with the search for the dot-less fileType only when that one is
empty as well. -/
theorem C3_leading_dot_not_stripped (s : IndexState)
    (hext : ∀ kv ∈ s.m_pathToMetadata, kv.2.extension.take 2 ≠ [46, 46])
    (q ft : Str) (minSize maxSize : Nat) (minDate maxDate : Int) :
    search s q (46 :: ft) minSize maxSize minDate maxDate = [] ∧
    (search s q (46 :: ft) minSize maxSize minDate maxDate =
        search s q ft minSize maxSize minDate maxDate ↔
      search s q ft minSize maxSize minDate maxDate = []) := by
  have h : search s q (46 :: ft) minSize maxSize minDate maxDate = [] := by
    rw [search_eq, filterMap_none, sortByName_nil]
    intro p _
    unfold filterPath
    cases hm : mapFind p s.m_pathToMetadata with
    | none => rfl
    | some m =>
      have hmem := mapFind_mem p m _ hm
      have hbad := hext (p, m) hmem
      have : matchesFilters m (46 :: ft) minSize maxSize minDate maxDate = false := by
        cases hmf : matchesFilters m (46 :: ft) minSize maxSize minDate maxDate with
        | false => rfl
        | true =>
          have h3 := ((matchesFilters_iff _ _ _ _ _ _).1 hmf).2.2 (by simp)
          have h4 : toLowerStr (46 :: ft) = 46 :: toLowerStr ft := by
            simp [toLowerStr, tolower]
          rw [h4] at h3
          obtain ⟨r, hr⟩ := toLowerStr_head_dot _ _ h3
          exact absurd (stripDot_head_dot _ _ hr) hbad
      simp [this]
  refine ⟨h, ?_⟩
  rw [h]
  exact eq_comm

/-- C3, witness: the amended statement at the scenario tree, query `"a"`,
fileType `".txt"`. -/
theorem C3_leading_dot_not_stripped_witness :
    (∀ kv ∈ (indexOf scenarioFiles).m_pathToMetadata, kv.2.extension.take 2 ≠ [46, 46]) ∧
    search (indexOf scenarioFiles) (bytes "a") (46 :: bytes "txt") 0 UINT64_MAX 0 INT64_MAX = [] ∧
    (search (indexOf scenarioFiles) (bytes "a") (46 :: bytes "txt") 0 UINT64_MAX 0 INT64_MAX =
        search (indexOf scenarioFiles) (bytes "a") (bytes "txt") 0 UINT64_MAX 0 INT64_MAX ↔
      search (indexOf scenarioFiles) (bytes "a") (bytes "txt") 0 UINT64_MAX 0 INT64_MAX = []) :=
  ⟨by decide,
   C3_leading_dot_not_stripped (indexOf scenarioFiles) (by decide) (bytes "a") (bytes "txt")
     0 UINT64_MAX 0 INT64_MAX⟩

theorem filterPath_path_mem (s : IndexState) (fileType : Str) (minSize maxSize : Nat)
    (minDate maxDate : Int)
    (hkey : ∀ p m, mapFind p s.m_pathToMetadata = some m → m.path = p)
    (cands : List Str) :
    ∀ x ∈ (cands.filterMap (filterPath s fileType minSize maxSize minDate maxDate)).map
      FileMetadata.path, x ∈ cands := by
  intro x hx
  rw [List.mem_map] at hx
  obtain ⟨m, hm, rfl⟩ := hx
  rw [List.mem_filterMap] at hm
  obtain ⟨p, hp, hfp⟩ := hm
  unfold filterPath at hfp
  cases hfind : mapFind p s.m_pathToMetadata with
  | none => simp [hfind] at hfp
  | some m' =>
    simp only [hfind] at hfp
    split at hfp
    · have hmm : m' = m := Option.some.inj hfp
      rw [← hmm, hkey p m' hfind]
      exact hp
    · cases hfp

theorem filterLoop_nodup (s : IndexState) (fileType : Str) (minSize maxSize : Nat)
    (minDate maxDate : Int)
    (hkey : ∀ p m, mapFind p s.m_pathToMetadata = some m → m.path = p)
    (cands : List Str) (hc : cands.Nodup) :
    ((cands.filterMap (filterPath s fileType minSize maxSize minDate maxDate)).map
      FileMetadata.path).Nodup := by
  induction cands with
  | nil => exact List.nodup_nil
  | cons c cs ih =>
    rw [List.nodup_cons] at hc
    rw [List.filterMap_cons]
    cases hfp : filterPath s fileType minSize maxSize minDate maxDate c with
    | none => exact ih hc.2
    | some m =>
      simp only [List.map_cons]
      refine List.nodup_cons.2 ⟨?_, ih hc.2⟩
      have hmc : m.path = c := by
        unfold filterPath at hfp
        cases hfind : mapFind c s.m_pathToMetadata with
        | none => simp [hfind] at hfp
        | some m' =>
          simp only [hfind] at hfp
          split at hfp
          · have hmm : m' = m := Option.some.inj hfp
            rw [← hmm]
            exact hkey c m' hfind
          · cases hfp
      rw [hmc]
      intro hmem
      exact hc.1 (filterPath_path_mem s fileType minSize maxSize minDate maxDate hkey cs c hmem)

theorem filter_map_path_nodup (files : List FileMetadata)
    (hnd : (files.map FileMetadata.path).Nodup) (p : FileMetadata → Bool) :
    ((files.filter p).map FileMetadata.path).Nodup :=
  List.Nodup.sublist ((List.filter_sublist files).map _) hnd

theorem matchingPaths_nodup (files : List FileMetadata)
    (hnd : (files.map FileMetadata.path).Nodup) (query fileType : Str)
    (minSize maxSize : Nat) (minDate maxDate : Int) :
    (matchingPaths (indexOf files) query fileType minSize maxSize minDate maxDate).Nodup := by
  by_cases hq : query = []
  · subst hq
    by_cases hft : fileType = []
    · subst hft
      unfold matchingPaths
      split
      · rw [pathToMetadata_indexOf files hnd, List.map_map]
        exact List.Nodup.sublist (List.take_sublist _ _) hnd
      · simp
    · by_cases hdef : ([] : Str) = [] ∧ fileType = [] ∧ minSize = 0 ∧ maxSize = UINT64_MAX ∧
          minDate = 0 ∧ maxDate = INT64_MAX
      · exact absurd hdef.2.1 hft
      · rw [matchingPaths_fileType _ _ _ _ _ _ hft, extensionToFiles_indexOf]
        exact filter_map_path_nodup files hnd _
  · rw [matchingPaths_query _ _ _ _ _ _ _ hq]
    exact (findInTrie_indexOf files query).nodup_iff.2 (filter_map_path_nodup files hnd _)

theorem pathToMetadata_key (files : List FileMetadata)
    (hnd : (files.map FileMetadata.path).Nodup) (p : Str) (m : FileMetadata)
    (h : mapFind p (indexOf files).m_pathToMetadata = some m) : m.path = p := by
  rw [pathToMetadata_indexOf files hnd] at h
  exact (mapFind_pathList_mem files p m h).2

/-- C4. On an index built by `addFileToIndex` from files with pairwise
distinct paths, for every argument tuple the list `search` returns is sorted
non-decreasingly by name in the byte-wise lexicographic order and no two of
its records have the same path. -/
theorem C4_search_sorted_nodup (files : List FileMetadata)
    (hnd : (files.map FileMetadata.path).Nodup) (query fileType : Str)
    (minSize maxSize : Nat) (minDate maxDate : Int) :
    (search (indexOf files) query fileType minSize maxSize minDate maxDate).Pairwise
      (fun a b => a.name ≤ b.name) ∧
    ((search (indexOf files) query fileType minSize maxSize minDate maxDate).map
      FileMetadata.path).Nodup := by
  constructor
  · rw [search_eq]
    refine List.Pairwise.imp ?_ (sortByName_sorted _)
    intro a b hab
    apply not_lt.1
    intro hlt
    rw [(strLt_iff_lt b.name a.name).2 hlt] at hab
    cases hab
  · rw [search_eq]
    refine ((sortByName_perm _).map FileMetadata.path).nodup_iff.2 ?_
    exact filterLoop_nodup _ _ _ _ _ _ (pathToMetadata_key files hnd) _
      (matchingPaths_nodup files hnd _ _ _ _ _ _)

/-- C4, witness: the scenario tree, query `"a"`, no other filter. -/
theorem C4_search_sorted_nodup_witness :
    (scenarioFiles.map FileMetadata.path).Nodup ∧
    (search (indexOf scenarioFiles) (bytes "a") [] 0 UINT64_MAX 0 INT64_MAX).Pairwise
      (fun a b => a.name ≤ b.name) ∧
    ((search (indexOf scenarioFiles) (bytes "a") [] 0 UINT64_MAX 0 INT64_MAX).map
      FileMetadata.path).Nodup :=
  ⟨by decide, C4_search_sorted_nodup scenarioFiles (by decide) (bytes "a") [] 0 UINT64_MAX 0
    INT64_MAX⟩

/-- C5, evaluation at the failing input. With the single file `/r/old.txt`,
last written before 1970, in the index, PathMap has one entry but the
no-filter search returns no record. -/
theorem C5_default_search_drops_pre_epoch_file :
    (indexOf [preEpochFile]).m_pathToMetadata.length = 1 ∧
    min 1000 (indexOf [preEpochFile]).m_pathToMetadata.length = 1 ∧
    search (indexOf [preEpochFile]) [] [] 0 UINT64_MAX 0 INT64_MAX = [] := by
  decide

theorem mapFind_mapAssign {α β : Type} [DecidableEq α] (k k' : α) (v : β) (m : List (α × β)) :
    mapFind k' (mapAssign k v m) = if k = k' then some v else mapFind k' m := by
  induction m with
  | nil =>
    by_cases h : k = k' <;> simp [mapAssign, mapFind, h]
  | cons kv rest ih =>
    obtain ⟨k2, v2⟩ := kv
    by_cases h : k2 = k
    · subst h
      by_cases h2 : k2 = k' <;> simp [mapAssign, mapFind, h2]
    · simp only [mapAssign, h, if_false, mapFind, ih]
      by_cases h2 : k2 = k'
      · have : ¬ k = k' := fun e => h (h2.trans e.symm)
        simp [h2, this]
      · simp [h2]

theorem pathToMetadata_inserted (files : List FileMetadata) (p : Str) (m : FileMetadata)
    (h : mapFind p (indexOf files).m_pathToMetadata = some m) : m ∈ files := by
  induction files using List.reverseRecOn with
  | nil => simp [indexOf, IndexState.empty, mapFind] at h
  | append_singleton fs x ih =>
    rw [indexOf_snoc] at h
    have h' : mapFind p (mapAssign x.path x (indexOf fs).m_pathToMetadata) = some m := h
    rw [mapFind_mapAssign] at h'
    by_cases hx : x.path = p
    · rw [if_pos hx] at h'
      rw [← Option.some.inj h']
      simp
    · rw [if_neg hx] at h'
      exact List.mem_append_left _ (ih h')

theorem matchesFilters_fold (file : FileMetadata) (ft ft' : Str) (minSize maxSize : Nat)
    (minDate maxDate : Int) (hft : toLowerStr ft = toLowerStr ft') :
    matchesFilters file ft minSize maxSize minDate maxDate =
      matchesFilters file ft' minSize maxSize minDate maxDate := by
  have he : ft = [] ↔ ft' = [] := by
    rw [← toLowerStr_eq_nil ft, ← toLowerStr_eq_nil ft', hft]
  unfold matchesFilters
  by_cases h : ft = []
  · simp [h, he.1 h]
  · have h' : ¬ ft' = [] := fun e => h (he.2 e)
    simp [h, h', hft]

theorem matchingPaths_fold (s : IndexState) (q q' ft ft' : Str) (minSize maxSize : Nat)
    (minDate maxDate : Int) (hq : toLowerStr q = toLowerStr q')
    (hft : toLowerStr ft = toLowerStr ft') :
    matchingPaths s q ft minSize maxSize minDate maxDate =
      matchingPaths s q' ft' minSize maxSize minDate maxDate := by
  have he : ft = [] ↔ ft' = [] := by
    rw [← toLowerStr_eq_nil ft, ← toLowerStr_eq_nil ft', hft]
  have hqe : q = [] ↔ q' = [] := by
    rw [← toLowerStr_eq_nil q, ← toLowerStr_eq_nil q', hq]
  unfold matchingPaths findInTrie
  simp only [hq, hft, he, hqe, ne_eq]

/-- C6. Case folding of the arguments: two searches whose queries agree after
ASCII lower-casing and whose fileTypes agree after ASCII lower-casing return
the same list on every index state, and every record that a search returns
on an index built by `addFileToIndex` is one of the inserted records,
unchanged (so its name has the case it was inserted with). -/
theorem C6_case_folding (s : IndexState) (files : List FileMetadata) (q q' ft ft' : Str)
    (minSize maxSize : Nat) (minDate maxDate : Int)
    (hq : toLowerStr q = toLowerStr q') (hft : toLowerStr ft = toLowerStr ft') :
    search s q ft minSize maxSize minDate maxDate =
      search s q' ft' minSize maxSize minDate maxDate ∧
    ∀ r ∈ search (indexOf files) q ft minSize maxSize minDate maxDate, r ∈ files := by
  constructor
  · rw [search_eq, search_eq, matchingPaths_fold s q q' ft ft' _ _ _ _ hq hft]
    have : filterPath s ft minSize maxSize minDate maxDate =
        filterPath s ft' minSize maxSize minDate maxDate := by
      funext p
      unfold filterPath
      cases mapFind p s.m_pathToMetadata with
      | none => rfl
      | some m => simp only [matchesFilters_fold m ft ft' _ _ _ _ hft]
    rw [this]
  · intro r hr
    rw [search_eq] at hr
    have hr' := (sortByName_perm _).subset hr
    rw [List.mem_filterMap] at hr'
    obtain ⟨p, _, hfp⟩ := hr'
    unfold filterPath at hfp
    cases hfind : mapFind p (indexOf files).m_pathToMetadata with
    | none => simp [hfind] at hfp
    | some m =>
      simp only [hfind] at hfp
      split at hfp
      · rw [← Option.some.inj hfp]
        exact pathToMetadata_inserted files p m hfind
      · cases hfp

/-- C6, witness: scenario S6. With `/r/FooBar.TXT` indexed, the searches
`("foob", "TXT")` and `("FOOB", "txt")` return the same list, namely the one
inserted record, whose name is still `FooBar.TXT`. -/
theorem C6_case_folding_witness :
    toLowerStr (bytes "foob") = toLowerStr (bytes "FOOB") ∧
    toLowerStr (bytes "TXT") = toLowerStr (bytes "txt") ∧
    (search (indexOf [fooBar]) (bytes "foob") (bytes "TXT") 0 UINT64_MAX 0 INT64_MAX =
      search (indexOf [fooBar]) (bytes "FOOB") (bytes "txt") 0 UINT64_MAX 0 INT64_MAX ∧
     ∀ r ∈ search (indexOf [fooBar]) (bytes "foob") (bytes "TXT") 0 UINT64_MAX 0 INT64_MAX,
       r ∈ [fooBar]) ∧
    (search (indexOf [fooBar]) (bytes "foob") (bytes "TXT") 0 UINT64_MAX 0 INT64_MAX).map
      FileMetadata.name = [bytes "FooBar.TXT"] :=
  ⟨by decide, by decide,
   C6_case_folding (indexOf [fooBar]) [fooBar] (bytes "foob") (bytes "FOOB") (bytes "TXT")
     (bytes "txt") 0 UINT64_MAX 0 INT64_MAX (by decide) (by decide),
   by decide⟩

/-- C7, evaluation at the failing input. Inserting the file `/r/foo.`, whose
extension is `"."`, into the empty indices creates an ExtensionMap entry
under the empty key. -/
theorem C7_empty_extension_key_created :
    trailingDotFile.extension = [46] ∧
    mapFind [] (addFileToIndex trailingDotFile IndexState.empty).m_extensionToFiles =
      some [trailingDotFile.path] := by
  decide

/-- C8. Size- or date-only queries return nothing: on every index state, a
search with empty query and empty fileType whose ranges differ from the
defaults in at least one component returns the empty list. -/
theorem C8_range_only_search_empty (s : IndexState) (minSize maxSize : Nat)
    (minDate maxDate : Int)
    (h : (minSize, maxSize, minDate, maxDate) ≠ (0, UINT64_MAX, 0, INT64_MAX)) :
    search s [] [] minSize maxSize minDate maxDate = [] := by
  have hnot : ¬ (([] : Str) = [] ∧ ([] : Str) = [] ∧ minSize = 0 ∧ maxSize = UINT64_MAX ∧
      minDate = 0 ∧ maxDate = INT64_MAX) := by
    rintro ⟨_, _, h1, h2, h3, h4⟩
    exact h (by rw [h1, h2, h3, h4])
  have hm : matchingPaths s [] [] minSize maxSize minDate maxDate = [] := by
    unfold matchingPaths
    rw [if_neg hnot]
    simp
  rw [search_eq, hm]
  rfl

/-- C8, witness: on the scenario tree `/r/big.txt` has 10000 bytes, yet the
search with only `minSize = 1000` set returns nothing. -/
theorem C8_range_only_search_empty_witness :
    ((1000, UINT64_MAX, (0 : Int), INT64_MAX) ≠ (0, UINT64_MAX, 0, INT64_MAX)) ∧
    (∃ m ∈ scenarioFiles, 1000 ≤ m.size ∧ m.size ≤ UINT64_MAX ∧ 0 ≤ m.lastModified ∧
      m.lastModified ≤ INT64_MAX) ∧
    search (indexOf scenarioFiles) [] [] 1000 UINT64_MAX 0 INT64_MAX = [] :=
  ⟨by decide, by decide,
   C8_range_only_search_empty (indexOf scenarioFiles) 1000 UINT64_MAX 0 INT64_MAX (by decide)⟩

/-! ## Claims about the directory walker -/

/-- A state in which every worker is in the wait, the queue is empty and
cancellation is not requested admits no step of any worker. -/
theorem workerStep_none_of_blocked (s : EngineState)
    (hw : ∀ w ∈ s.workers, w.pc.isWaiting = true) (hq : s.m_workQueue = [])
    (hc : s.m_cancelIndexingRequested = false) (i : Nat) : workerStep i s = none := by
  unfold workerStep
  cases hget : s.workers.get? i with
  | none => rfl
  | some w =>
    have hmem : w ∈ s.workers := List.get?_mem hget
    have hpc := hw w hmem
    obtain ⟨pc, d⟩ := w
    cases pc with
    | exited => rfl
    | waiting => simp [hc, hq]
    | enumerating p => cases hpc

/-- From a state that admits no step, only the empty schedule runs. -/
theorem runSchedule_of_stuck (s s' : EngineState) (hs : ∀ i, workerStep i s = none)
    (sched : List Nat) (h : runSchedule sched s = some s') : sched = [] := by
  cases sched with
  | nil => rfl
  | cons i rest => simp [runSchedule, hs i] at h

theorem get?_set_some {α : Type} (l : List α) (i j : Nat) (a b : α)
    (h : (l.set i a).get? j = some b) :
    (j = i ∧ b = a) ∨ (j ≠ i ∧ l.get? j = some b) := by
  rw [List.get?_eq_getElem?, List.getElem?_set] at h
  by_cases hij : i = j
  · subst hij
    rw [if_pos rfl] at h
    by_cases hl : i < l.length
    · rw [if_pos hl] at h
      exact Or.inl ⟨rfl, (Option.some.inj h).symm⟩
    · rw [if_neg hl] at h
      cases h
  · rw [if_neg hij] at h
    rw [List.get?_eq_getElem?]
    exact Or.inr ⟨fun e => hij e.symm, h⟩

theorem emptyRootInv_init (hc : Nat) :
    EmptyRootInv (if hc > 0 then (hc : Int) else 4) (initializeIndex hc emptyRoot) := by
  refine ⟨rfl, rfl, rfl, Or.inl ⟨rfl, ?_, ?_⟩⟩
  · show ((if hc > 0 then hc else 4 : Nat) : Int) = _
    split <;> rfl
  · intro w hw
    rw [show (initializeIndex hc emptyRoot).workers =
      List.replicate (if hc > 0 then hc else 4) { pc := .waiting, decrements := 0 } from rfl] at hw
    rw [(List.mem_replicate.1 hw).2]
    rfl

/-- With at least two workers, every step of a pass over a root without
entries stays inside `EmptyRootInv`. -/
theorem emptyRootInv_step (n : Int) (hn : 2 ≤ n) (s s' : EngineState) (i : Nat)
    (hinv : EmptyRootInv n s) (hstep : workerStep i s = some s') : EmptyRootInv n s' := by
  obtain ⟨h1, h2, h3, hcase⟩ := hinv
  unfold workerStep at hstep
  cases hget : s.workers.get? i with
  | none => rw [hget] at hstep; cases hstep
  | some w =>
    rw [hget] at hstep
    obtain ⟨pc, d⟩ := w
    rcases hcase with ⟨hq, ha, hw⟩ | ⟨hq, ha, k, hk⟩ | ⟨hq, ha, hw⟩
    · -- the root is queued, every worker waits
      have hpc := hw _ (List.get?_mem hget)
      cases pc with
      | exited => cases hpc
      | enumerating p => cases hpc
      | waiting =>
        simp only [h3, hq, Bool.false_eq_true, if_false] at hstep
        have hs := Option.some.inj hstep
        subst hs
        refine ⟨h1, h2, rfl, Or.inr (Or.inl ⟨rfl, ha, i, ?_⟩)⟩
        intro j w hj
        rcases get?_set_some _ _ _ _ _ hj with ⟨hji, hwa⟩ | ⟨hji, hold⟩
        · subst hwa
          exact ⟨fun _ => rfl, fun hne => absurd hji hne⟩
        · exact ⟨fun e => absurd e hji, fun _ => hw w (List.get?_mem hold)⟩
    · -- the queue is empty, worker `k` stands at its check block
      have hik := hk i _ hget
      by_cases hi : i = k
      · have hpc : pc = WorkerPc.enumerating [] := hik.1 hi
        subst hpc
        have hne : ¬ (s.m_activeWorkers - 1 = 0) := by omega
        simp only [hq, hne, if_false] at hstep
        have hs := Option.some.inj hstep
        subst hs
        refine ⟨h1, h2, h3, Or.inr (Or.inr ⟨rfl, by simp [ha], ?_⟩)⟩
        intro w hwm
        obtain ⟨j, hj⟩ := List.mem_iff_get?.1 hwm
        rcases get?_set_some _ _ _ _ _ hj with ⟨_, hwa⟩ | ⟨hji, hold⟩
        · subst hwa
          rfl
        · exact (hk j w hold).2 (fun e => hji (e.trans hi.symm))
      · have hpc := hik.2 hi
        cases pc with
        | exited => cases hpc
        | enumerating p => cases hpc
        | waiting =>
          simp [h3, hq] at hstep
    · -- the queue is empty, every worker waits
      have hpc := hw _ (List.get?_mem hget)
      cases pc with
      | exited => cases hpc
      | enumerating p => cases hpc
      | waiting =>
        simp [h3, hq] at hstep

/-- With any thread count other than one, no schedule of an un-cancelled pass
over a root without entries reaches `isIndexing = false` or progress 1. -/
theorem empty_root_never_completes (hc : Nat) (hne : hc ≠ 1) (sched : List Nat)
    (s' : EngineState) (h : runSchedule sched (initializeIndex hc emptyRoot) = some s') :
    s'.m_isIndexing = true ∧ s'.m_indexingProgress = 0 := by
  have hn : (2 : Int) ≤ (if hc > 0 then (hc : Int) else 4) := by
    split <;> omega
  have key : ∀ (sched : List Nat) (s : EngineState),
      EmptyRootInv (if hc > 0 then (hc : Int) else 4) s →
      runSchedule sched s = some s' →
      EmptyRootInv (if hc > 0 then (hc : Int) else 4) s' := by
    intro sched
    induction sched with
    | nil =>
      intro s hs hrun
      rw [← Option.some.inj hrun]
      exact hs
    | cons i rest ih =>
      intro s hs hrun
      simp only [runSchedule] at hrun
      cases hstep : workerStep i s with
      | none => rw [hstep] at hrun; cases hrun
      | some s1 =>
        rw [hstep] at hrun
        exact ih s1 (emptyRootInv_step _ hn s s1 i hs hstep) hrun
  have := key sched _ (emptyRootInv_init hc) h
  exact ⟨this.1, this.2.1⟩

/-- With a single worker the pass over a root without entries completes. -/
theorem single_worker_empty_root_completes :
    ∃ s, runSchedule [0, 0] (initializeIndex 1 emptyRoot) = some s ∧
      s.m_isIndexing = false ∧ s.m_indexingProgress = 1 ∧ s.m_activeWorkers = 0 :=
  ⟨_, rfl, rfl, rfl, rfl⟩

/-- C9, evaluation at the failing input. Two workers on a root directory
without entries: after worker 0 has popped the root and run its check block,
both workers are blocked in the wait on an empty queue, no worker can ever
move again, and `isIndexing` is still true with progress 0. The same happens
with the four workers of the fallback thread count. -/
theorem C9_empty_root_pass_gets_stuck :
    (∃ s, runSchedule [0, 0] (initializeIndex 2 emptyRoot) = some s ∧
      s.workers.length = 2 ∧
      (∀ w ∈ s.workers, w.pc.isWaiting = true) ∧
      s.m_workQueue.length = 0 ∧ s.m_cancelIndexingRequested = false ∧
      s.m_isIndexing = true ∧ s.m_indexingProgress = 0 ∧
      (∀ i, workerStep i s = none) ∧
      (∀ sched s', runSchedule sched s = some s' → sched = [])) ∧
    (∃ s, runSchedule [0, 0] (initializeIndex 0 emptyRoot) = some s ∧
      s.workers.length = 4 ∧
      (∀ w ∈ s.workers, w.pc.isWaiting = true) ∧
      s.m_workQueue.length = 0 ∧ s.m_cancelIndexingRequested = false ∧
      s.m_isIndexing = true ∧ s.m_indexingProgress = 0 ∧
      (∀ i, workerStep i s = none) ∧
      (∀ sched s', runSchedule sched s = some s' → sched = [])) := by
  constructor
  · refine ⟨_, rfl, rfl, by decide, rfl, rfl, rfl, rfl, ?_, ?_⟩
    · exact workerStep_none_of_blocked _ (by decide) rfl rfl
    · intro sched s' h
      exact runSchedule_of_stuck _ s' (workerStep_none_of_blocked _ (by decide) rfl rfl) sched h
  · refine ⟨_, rfl, rfl, by decide, rfl, rfl, rfl, rfl, ?_, ?_⟩
    · exact workerStep_none_of_blocked _ (by decide) rfl rfl
    · intro sched s' h
      exact runSchedule_of_stuck _ s' (workerStep_none_of_blocked _ (by decide) rfl rfl) sched h

/-- C10, evaluation at the failing input. Two workers on the tree
`/r/d/{d2/, late.txt}`: under the schedule 0,0,1,0,1,0 worker 0 stands at its
check block for the second time while worker 1 is still enumerating `/r/d`
with `late.txt` unvisited; the next step of worker 0 is its second decrement
of the counter, and it publishes `isIndexing = false` and progress 1 although
`late.txt` is not in PathMap; worker 1 indexes it afterwards. -/
theorem C10_second_decrement_publishes_early :
    ∃ s s1 s2, runSchedule [0, 0, 1, 0, 1, 0] (initializeIndex 2 nestedRoot) = some s ∧
      workerStep 0 s = some s1 ∧ runSchedule [1, 1] s1 = some s2 ∧
      s.m_isIndexing = true ∧ s.m_workQueue.length = 0 ∧
      s.workers.map Worker.decrements = [1, 0] ∧
      s.workers.map (fun w => w.pc.isEnumerating) = [true, true] ∧
      s.workers.map (fun w => w.pc.pendingFiles) = [[], [lateFile]] ∧
      s1.m_isIndexing = false ∧ s1.m_indexingProgress = 1 ∧ s1.m_activeWorkers = 0 ∧
      s1.workers.map Worker.decrements = [2, 0] ∧
      s1.workers.map (fun w => w.pc.isEnumerating) = [false, true] ∧
      mapFind lateFile.path s1.index.m_pathToMetadata = none ∧
      mapFind lateFile.path s2.index.m_pathToMetadata = some lateFile ∧
      s2.m_activeWorkers = -1 := by
  refine ⟨_, _, _, rfl, rfl, rfl, ?_⟩
  decide

/-! ## The cross-index invariant of `addFileToIndex` -/

theorem nodeData_mk (ch : List (Nat × TrieNode)) (e : Bool) (fp : List Str) :
    nodeData (.mk ch e fp) = ([], e, fp) :: childData ch := by
  rw [nodeData]

theorem childData_nil : childData [] = [] := by
  rw [childData]

theorem childData_cons (c : Nat) (t : TrieNode) (rest : List (Nat × TrieNode)) :
    childData ((c, t) :: rest) =
      (nodeData t).map (fun x => (c :: x.1, x.2)) ++ childData rest := by
  rw [childData]

theorem nodeData_empty : nodeData TrieNode.empty = [([], false, [])] := by
  rw [TrieNode.empty, nodeData_mk, childData_nil]

theorem mem_childData (ch : List (Nat × TrieNode)) (x : Str × Bool × List Str) :
    x ∈ childData ch ↔ ∃ ct ∈ ch, ∃ y ∈ nodeData ct.2, x = (ct.1 :: y.1, y.2) := by
  induction ch with
  | nil => simp [childData_nil]
  | cons ct rest ih =>
    obtain ⟨c, t⟩ := ct
    rw [childData_cons, List.mem_append, ih, List.mem_map]
    constructor
    · rintro (⟨y, hy, rfl⟩ | ⟨ct, hct, y, hy, rfl⟩)
      · exact ⟨(c, t), List.mem_cons_self _ _, y, hy, rfl⟩
      · exact ⟨ct, List.mem_cons_of_mem _ hct, y, hy, rfl⟩
    · rintro ⟨ct, hct, y, hy, rfl⟩
      rcases List.mem_cons.1 hct with rfl | hct
      · exact Or.inl ⟨y, hy, rfl⟩
      · exact Or.inr ⟨ct, hct, y, hy, rfl⟩

theorem mapFind_of_mem_nodup {α β : Type} [DecidableEq α] (k : α) (v : β) (m : List (α × β))
    (hnd : (m.map Prod.fst).Nodup) (h : (k, v) ∈ m) : mapFind k m = some v := by
  induction m with
  | nil => exact absurd h (List.not_mem_nil _)
  | cons kv rest ih =>
    obtain ⟨k', v'⟩ := kv
    rw [List.map_cons, List.nodup_cons] at hnd
    rcases List.mem_cons.1 h with heq | h
    · cases heq
      simp [mapFind]
    · have hne : ¬ k' = k := by
        intro e
        subst e
        exact hnd.1 (List.mem_map.2 ⟨(k', v), h, rfl⟩)
      simp only [mapFind, hne, if_false]
      exact ih hnd.2 h

/-- With distinct child keys, the position of a node is the key that
`trieDescend` follows to reach it. -/
theorem trieDescend_of_nodeData (k : Str) :
    ∀ (t : TrieNode) (e : Bool) (fp : List Str), TrieKeysUnique t → (k, e, fp) ∈ nodeData t →
      ∃ ch, trieDescend k t = some (.mk ch e fp) := by
  induction k with
  | nil =>
    intro t e fp ht hx
    cases ht with
    | mk ch e0 fp0 h1 h2 =>
      rw [nodeData_mk, List.mem_cons] at hx
      rcases hx with hx | hx
      · cases hx
        exact ⟨ch, rfl⟩
      · obtain ⟨ct, _, y, _, hxy⟩ := (mem_childData ch _).1 hx
        cases hxy
  | cons c k' ih =>
    intro t e fp ht hx
    cases ht with
    | mk ch e0 fp0 h1 h2 =>
      rw [nodeData_mk, List.mem_cons] at hx
      rcases hx with hx | hx
      · cases hx
      · obtain ⟨ct, hct, y, hy, hxy⟩ := (mem_childData ch _).1 hx
        obtain ⟨c2, t2⟩ := ct
        obtain ⟨yk, ye, yfp⟩ := y
        simp only [Prod.mk.injEq, List.cons.injEq] at hxy
        obtain ⟨⟨hc, hk⟩, he, hfp⟩ := hxy
        subst hc; subst hk; subst he; subst hfp
        have hfind := mapFind_of_mem_nodup c t2 ch h1 hct
        simp only [trieDescend, hfind]
        exact ih t2 e fp (h2 (c, t2) hct) hy

theorem mapUpdate_keys {α β : Type} [DecidableEq α] (k : α) (d : β) (f : β → β)
    (m : List (α × β)) :
    (mapUpdate k d f m).map Prod.fst =
      if k ∈ m.map Prod.fst then m.map Prod.fst else m.map Prod.fst ++ [k] := by
  induction m with
  | nil => simp [mapUpdate]
  | cons kv rest ih =>
    obtain ⟨k', v⟩ := kv
    by_cases h : k' = k
    · subst h
      simp [mapUpdate]
    · have h' : ¬ k = k' := fun e => h e.symm
      simp only [mapUpdate, h, if_false, List.map_cons, ih, List.mem_cons, h', false_or]
      split <;> simp

theorem mapUpdate_keys_nodup {α β : Type} [DecidableEq α] (k : α) (d : β) (f : β → β)
    (m : List (α × β)) (h : (m.map Prod.fst).Nodup) :
    ((mapUpdate k d f m).map Prod.fst).Nodup := by
  rw [mapUpdate_keys]
  split
  · exact h
  · rename_i hk
    rw [List.nodup_append]
    refine ⟨h, List.nodup_singleton _, ?_⟩
    intro a ha hb
    rw [List.mem_singleton] at hb
    subst hb
    exact hk ha

theorem TrieKeysUnique_empty : TrieKeysUnique TrieNode.empty :=
  TrieKeysUnique.mk [] false [] List.nodup_nil (fun _ h => absurd h (List.not_mem_nil _))

theorem TrieKeysUnique_trieInsert (name path : Str) :
    ∀ t, TrieKeysUnique t → TrieKeysUnique (trieInsert name path t) := by
  induction name with
  | nil =>
    intro t ht
    cases ht with
    | mk ch e fp h1 h2 => exact TrieKeysUnique.mk _ _ _ h1 h2
  | cons c cs ih =>
    intro t ht
    cases ht with
    | mk ch e fp h1 h2 =>
      exact TrieKeysUnique.mk _ _ _ (mapUpdate_keys_nodup _ _ _ ch h1)
        (mapUpdate_forall TrieKeysUnique _ _ _ ch (ih _ TrieKeysUnique_empty) ih h2)

theorem mem_mapUpdate {α β : Type} [DecidableEq α] (k : α) (d : β) (f : β → β)
    (m : List (α × β)) (kv : α × β) (h : kv ∈ mapUpdate k d f m) :
    kv ∈ m ∨ ∃ v0, kv = (k, f v0) ∧ ((k, v0) ∈ m ∨ v0 = d) := by
  induction m with
  | nil =>
    simp only [mapUpdate, List.mem_singleton] at h
    exact Or.inr ⟨d, h, Or.inr rfl⟩
  | cons kv' rest ih =>
    obtain ⟨k', v⟩ := kv'
    by_cases hk : k' = k
    · subst hk
      simp only [mapUpdate, if_true, List.mem_cons] at h
      rcases h with h | h
      · exact Or.inr ⟨v, h, Or.inl (List.mem_cons_self _ _)⟩
      · exact Or.inl (List.mem_cons_of_mem _ h)
    · simp only [mapUpdate, hk, if_false, List.mem_cons] at h
      rcases h with h | h
      · exact Or.inl (h ▸ List.mem_cons_self _ _)
      · rcases ih h with h | ⟨v0, h1, h2⟩
        · exact Or.inl (List.mem_cons_of_mem _ h)
        · refine Or.inr ⟨v0, h1, ?_⟩
          rcases h2 with h2 | h2
          · exact Or.inl (List.mem_cons_of_mem _ h2)
          · exact Or.inr h2

/-- The nodes of a trie after `trieInsert`: a node of the old trie, or a node
without paths, or the node at the lower-cased name, which is terminal and
holds the old paths of that position followed by the new path. -/
theorem nodeData_trieInsert (name path : Str) :
    ∀ (t : TrieNode), ∀ x ∈ nodeData (trieInsert name path t),
      x ∈ nodeData t ∨ x.2.2 = [] ∨
        (x.1 = toLowerStr name ∧ x.2.1 = true ∧
          ∃ e0 fp0, x.2.2 = fp0 ++ [path] ∧
            ((toLowerStr name, e0, fp0) ∈ nodeData t ∨ fp0 = [])) := by
  induction name with
  | nil =>
    intro t x hx
    obtain ⟨ch, e, fp⟩ := t
    simp only [trieInsert, nodeData_mk, List.mem_cons] at hx ⊢
    rcases hx with rfl | hx
    · exact Or.inr (Or.inr ⟨rfl, rfl, e, fp, rfl, Or.inl (Or.inl rfl)⟩)
    · exact Or.inl (Or.inr hx)
  | cons c cs ih =>
    intro t x hx
    obtain ⟨ch, e, fp⟩ := t
    simp only [trieInsert, nodeData_mk, List.mem_cons] at hx ⊢
    rcases hx with rfl | hx
    · exact Or.inl (Or.inl rfl)
    · obtain ⟨ct, hct, y, hy, rfl⟩ := (mem_childData _ _).1 hx
      rcases mem_mapUpdate _ _ _ _ _ hct with hold | ⟨t0, rfl, ht0⟩
      · exact Or.inl (Or.inr ((mem_childData _ _).2 ⟨ct, hold, y, hy, rfl⟩))
      · have lift : ∀ z, z ∈ nodeData t0 →
            (tolower c :: z.1, z.2) ∈ childData ch ∨ z.2.2 = [] := by
          intro z hz
          rcases ht0 with hmem | hemp
          · exact Or.inl ((mem_childData _ _).2 ⟨(tolower c, t0), hmem, z, hz, rfl⟩)
          · subst hemp
            rw [nodeData_empty, List.mem_singleton] at hz
            subst hz
            exact Or.inr rfl
        rcases ih t0 y hy with h | h | ⟨h1, h2, e0, fp0, h3, h4⟩
        · rcases lift y h with h | h
          · exact Or.inl (Or.inr h)
          · exact Or.inr (Or.inl h)
        · exact Or.inr (Or.inl h)
        · refine Or.inr (Or.inr ⟨?_, h2, e0, fp0, h3, ?_⟩)
          · show tolower c :: y.1 = toLowerStr (c :: cs)
            rw [h1]
            rfl
          · rcases h4 with h4 | h4
            · rcases lift _ h4 with h | h
              · exact Or.inl (Or.inr h)
              · exact Or.inr h
            · exact Or.inr h4

theorem triePaths_mk (ch : List (Nat × TrieNode)) (e : Bool) (fp : List Str) :
    triePaths (.mk ch e fp) = fp ++ (childData ch).flatMap (fun x => x.2.2) := by
  simp [triePaths, nodeData_mk]

theorem childPaths_cons (c : Nat) (t : TrieNode) (rest : List (Nat × TrieNode)) :
    (childData ((c, t) :: rest)).flatMap (fun x => x.2.2) =
      triePaths t ++ (childData rest).flatMap (fun x => x.2.2) := by
  simp [triePaths, childData_cons, List.flatMap_map]

theorem triePaths_empty : triePaths TrieNode.empty = [] := by
  simp [triePaths, nodeData_empty]

theorem childPaths_mapUpdate (c : Nat) (f : TrieNode → TrieNode) (p : Str)
    (hf : ∀ t, (triePaths (f t)).Perm (p :: triePaths t)) (ch : List (Nat × TrieNode)) :
    ((childData (mapUpdate c TrieNode.empty f ch)).flatMap (fun x => x.2.2)).Perm
      (p :: (childData ch).flatMap (fun x => x.2.2)) := by
  induction ch with
  | nil =>
    have := hf TrieNode.empty
    rw [triePaths_empty] at this
    simpa [mapUpdate, childPaths_cons, childData_nil] using this
  | cons kt rest ih =>
    obtain ⟨k, t⟩ := kt
    by_cases hk : k = c
    · simp only [mapUpdate, hk, if_true, childPaths_cons]
      exact List.Perm.append_right _ (hf t)
    · simp only [mapUpdate, hk, if_false, childPaths_cons]
      exact (List.Perm.append_left _ ih).trans List.perm_middle

/-- Among the paths of the trie, `trieInsert` adds the new path once and
changes nothing else. -/
theorem triePaths_trieInsert (name path : Str) :
    ∀ t, (triePaths (trieInsert name path t)).Perm (path :: triePaths t) := by
  induction name with
  | nil =>
    intro t
    obtain ⟨ch, e, fp⟩ := t
    simp only [trieInsert, triePaths_mk]
    rw [List.append_assoc]
    exact List.perm_middle
  | cons c cs ih =>
    intro t
    obtain ⟨ch, e, fp⟩ := t
    simp only [trieInsert, triePaths_mk]
    exact (List.Perm.append_left _ (childPaths_mapUpdate (tolower c) _ path ih ch)).trans
      List.perm_middle

/-- Among the paths of the ExtensionMap, the `push_back` adds the new path
once and changes nothing else. -/
theorem extensionPaths_mapUpdate (k path : Str) (m : List (Str × List Str)) :
    (extensionPaths (mapUpdate k [] (fun v => v ++ [path]) m)).Perm
      (path :: extensionPaths m) := by
  induction m with
  | nil => simp [mapUpdate, extensionPaths]
  | cons kv rest ih =>
    obtain ⟨k', v⟩ := kv
    by_cases hk : k' = k
    · simp only [mapUpdate, hk, if_true, extensionPaths, List.flatMap_cons]
      rw [List.append_assoc]
      exact List.perm_middle
    · simp only [mapUpdate, hk, if_false, extensionPaths, List.flatMap_cons]
      exact (List.Perm.append_left _ ih).trans List.perm_middle

theorem crossIndexInv_empty : CrossIndexInv IndexState.empty where
  childKeys := TrieKeysUnique_empty
  trie := by
    intro x hx p hp
    have hx' : x ∈ nodeData TrieNode.empty := hx
    rw [nodeData_empty, List.mem_singleton] at hx'
    subst hx'
    exact absurd hp (List.not_mem_nil _)
  extension := fun _ h => absurd h (List.not_mem_nil _)
  trieOnce := by
    intro p m h
    exact absurd h (by simp [IndexState.empty, mapFind])
  extensionAtMostOnce := by
    intro p m h
    exact absurd h (by simp [IndexState.empty, mapFind])

theorem triePaths_are_keys (s : IndexState) (hinv : CrossIndexInv s) (p : Str)
    (hp : p ∈ triePaths s.m_fileNameTrie) : ∃ m, mapFind p s.m_pathToMetadata = some m := by
  unfold triePaths at hp
  rw [List.mem_flatMap] at hp
  obtain ⟨x, hx, hpx⟩ := hp
  obtain ⟨m, hm, _⟩ := hinv.trie x hx p hpx
  exact ⟨m, hm⟩

theorem extensionPaths_are_keys (s : IndexState) (hinv : CrossIndexInv s) (p : Str)
    (hp : p ∈ extensionPaths s.m_extensionToFiles) :
    ∃ m, mapFind p s.m_pathToMetadata = some m := by
  unfold extensionPaths at hp
  rw [List.mem_flatMap] at hp
  obtain ⟨kv, hkv, hpkv⟩ := hp
  obtain ⟨m, hm, _⟩ := hinv.extension kv hkv p hpkv
  exact ⟨m, hm⟩

theorem crossIndexInv_addFileToIndex (s : IndexState) (metadata : FileMetadata)
    (hinv : CrossIndexInv s) (hnew : mapFind metadata.path s.m_pathToMetadata = none) :
    CrossIndexInv (addFileToIndex metadata s) := by
  have hpm : ∀ p, mapFind p (addFileToIndex metadata s).m_pathToMetadata =
      if metadata.path = p then some metadata else mapFind p s.m_pathToMetadata :=
    fun p => mapFind_mapAssign metadata.path p metadata s.m_pathToMetadata
  have hold : ∀ p m, mapFind p s.m_pathToMetadata = some m →
      mapFind p (addFileToIndex metadata s).m_pathToMetadata = some m := by
    intro p m h
    rw [hpm]
    by_cases hp : metadata.path = p
    · rw [hp, h] at hnew
      cases hnew
    · rw [if_neg hp]
      exact h
  have hself : mapFind metadata.path (addFileToIndex metadata s).m_pathToMetadata =
      some metadata := by
    rw [hpm, if_pos rfl]
  have hnotTrie : metadata.path ∉ triePaths s.m_fileNameTrie := by
    intro h
    obtain ⟨m, hm⟩ := triePaths_are_keys s hinv _ h
    rw [hm] at hnew
    cases hnew
  have hnotExt : metadata.path ∉ extensionPaths s.m_extensionToFiles := by
    intro h
    obtain ⟨m, hm⟩ := extensionPaths_are_keys s hinv _ h
    rw [hm] at hnew
    cases hnew
  have hkeys : TrieKeysUnique (addFileToIndex metadata s).m_fileNameTrie :=
    TrieKeysUnique_trieInsert _ _ _ hinv.childKeys
  have hpos : ∀ x ∈ nodeData (addFileToIndex metadata s).m_fileNameTrie, ∀ p ∈ x.2.2,
      ∃ m, mapFind p (addFileToIndex metadata s).m_pathToMetadata = some m ∧ x.2.1 = true ∧
        x.1 = toLowerStr m.name := by
    intro x hx p hp
    rcases nodeData_trieInsert metadata.name metadata.path s.m_fileNameTrie x hx with
      h | h | ⟨h1, h2, e0, fp0, h3, h4⟩
    · obtain ⟨m, hm, he, hk, _⟩ := hinv.trie x h p hp
      exact ⟨m, hold p m hm, he, hk⟩
    · rw [h] at hp
      exact absurd hp (List.not_mem_nil _)
    · rw [h3, List.mem_append, List.mem_singleton] at hp
      rcases hp with hp | hp
      · rcases h4 with h4 | h4
        · obtain ⟨m, hm, _, hk, _⟩ := hinv.trie _ h4 p hp
          exact ⟨m, hold p m hm, h2, h1.trans hk⟩
        · rw [h4] at hp
          exact absurd hp (List.not_mem_nil _)
      · subst hp
        exact ⟨metadata, hself, h2, h1⟩
  refine ⟨hkeys, ?_, ?_, ?_, ?_⟩
  · intro x hx p hp
    obtain ⟨m, hm, he, hk⟩ := hpos x hx p hp
    refine ⟨m, hm, he, hk, ?_⟩
    obtain ⟨xk, xe, xfp⟩ := x
    have hk' : xk = toLowerStr m.name := hk
    subst hk'
    exact trieDescend_of_nodeData _ _ xe xfp hkeys hx
  · intro kv hkv p hp
    have hkv' : kv ∈ extensionInsert metadata.extension metadata.path s.m_extensionToFiles := hkv
    unfold extensionInsert at hkv'
    by_cases he : toLowerStr metadata.extension = []
    · simp only [he, ne_eq, not_true_eq_false, if_false] at hkv'
      obtain ⟨m, hm, hk⟩ := hinv.extension kv hkv' p hp
      exact ⟨m, hold p m hm, hk⟩
    · simp only [he, ne_eq, not_false_eq_true, if_true] at hkv'
      rcases mem_mapUpdate _ _ _ _ _ hkv' with h | ⟨v0, rfl, h⟩
      · obtain ⟨m, hm, hk⟩ := hinv.extension kv h p hp
        exact ⟨m, hold p m hm, hk⟩
      · rw [List.mem_append, List.mem_singleton] at hp
        rcases hp with hp | hp
        · rcases h with h | h
          · obtain ⟨m, hm, hk⟩ := hinv.extension _ h p hp
            exact ⟨m, hold p m hm, hk⟩
          · rw [h] at hp
            exact absurd hp (List.not_mem_nil _)
        · subst hp
          exact ⟨metadata, hself, rfl⟩
  · intro p m hm
    have hperm := triePaths_trieInsert metadata.name metadata.path s.m_fileNameTrie
    have hcount : (triePaths (addFileToIndex metadata s).m_fileNameTrie).count p =
        (metadata.path :: triePaths s.m_fileNameTrie).count p := hperm.countP_eq _
    rw [hcount]
    rw [hpm] at hm
    by_cases hp : metadata.path = p
    · subst hp
      rw [List.count_cons_self, List.count_eq_zero_of_not_mem hnotTrie]
    · rw [if_neg hp] at hm
      rw [List.count_cons_of_ne (fun e => hp e.symm)]
      exact hinv.trieOnce p m hm
  · intro p m hm
    rw [hpm] at hm
    have hbound : (extensionPaths s.m_extensionToFiles).count p ≤ 1 := by
      by_cases hp : metadata.path = p
      · subst hp
        rw [List.count_eq_zero_of_not_mem hnotExt]
        exact Nat.zero_le _
      · rw [if_neg hp] at hm
        exact hinv.extensionAtMostOnce p m hm
    show (extensionPaths
      (extensionInsert metadata.extension metadata.path s.m_extensionToFiles)).count p ≤ 1
    unfold extensionInsert
    by_cases he : toLowerStr metadata.extension = []
    · simp only [he, ne_eq, not_true_eq_false, if_false]
      exact hbound
    · simp only [he, ne_eq, not_false_eq_true, if_true]
      have hcount : (extensionPaths (mapUpdate (stripDot (toLowerStr metadata.extension)) []
          (fun v => v ++ [metadata.path]) s.m_extensionToFiles)).count p =
          (metadata.path :: extensionPaths s.m_extensionToFiles).count p :=
        (extensionPaths_mapUpdate _ metadata.path s.m_extensionToFiles).countP_eq _
      rw [hcount]
      by_cases hp : metadata.path = p
      · subst hp
        rw [List.count_cons_self, List.count_eq_zero_of_not_mem hnotExt]
      · rw [if_neg hp] at hm
        rw [List.count_cons_of_ne (fun e => hp e.symm)]
        exact hinv.extensionAtMostOnce p m hm

/-- C11. Cross-index consistency is an invariant of `addFileToIndex`: it
holds of the empty indices, and when it holds of an index state it holds
again after `addFileToIndex` of a file whose path is not yet a key of
PathMap. -/
theorem C11_cross_index_invariant (s : IndexState) (metadata : FileMetadata)
    (hinv : CrossIndexInv s) (hnew : mapFind metadata.path s.m_pathToMetadata = none) :
    CrossIndexInv IndexState.empty ∧ CrossIndexInv (addFileToIndex metadata s) :=
  ⟨crossIndexInv_empty, crossIndexInv_addFileToIndex s metadata hinv hnew⟩

/-- C11, witness: the index holding `/r/FooBar.TXT` and `/r/old.txt` is
consistent, `/r/foo.` is not yet a key of PathMap, and the index is
consistent again after `/r/foo.` has been added. -/
theorem C11_cross_index_invariant_witness :
    CrossIndexInv (indexOf [fooBar, preEpochFile]) ∧
    mapFind trailingDotFile.path (indexOf [fooBar, preEpochFile]).m_pathToMetadata = none ∧
    (CrossIndexInv IndexState.empty ∧
      CrossIndexInv (addFileToIndex trailingDotFile (indexOf [fooBar, preEpochFile]))) :=
  have h1 : CrossIndexInv (addFileToIndex fooBar IndexState.empty) :=
    (C11_cross_index_invariant IndexState.empty fooBar crossIndexInv_empty rfl).2
  have h2 : CrossIndexInv (indexOf [fooBar, preEpochFile]) :=
    (C11_cross_index_invariant _ preEpochFile h1 (by decide)).2
  ⟨h2, by decide,
   C11_cross_index_invariant (indexOf [fooBar, preEpochFile]) trailingDotFile h2 (by decide)⟩

theorem mapFind_none_of_not_mem {α β : Type} [DecidableEq α] (k : α) (m : List (α × β))
    (h : k ∉ m.map Prod.fst) : mapFind k m = none := by
  induction m with
  | nil => rfl
  | cons kv rest ih =>
    obtain ⟨k', v⟩ := kv
    simp only [List.map_cons, List.mem_cons, not_or] at h
    have hk : ¬ k' = k := fun e => h.1 e.symm
    simp only [mapFind, hk, if_false]
    exact ih h.2

/-- The invariant holds of every index built by `addFileToIndex` from files
with pairwise distinct paths. -/
theorem crossIndexInv_indexOf (files : List FileMetadata)
    (hnd : (files.map FileMetadata.path).Nodup) : CrossIndexInv (indexOf files) := by
  induction files using List.reverseRecOn with
  | nil => exact crossIndexInv_empty
  | append_singleton fs m ih =>
    rw [List.map_append, List.nodup_append] at hnd
    rw [indexOf_snoc]
    refine crossIndexInv_addFileToIndex _ m (ih hnd.1) ?_
    rw [pathToMetadata_indexOf fs hnd.1]
    apply mapFind_none_of_not_mem
    rw [List.map_map]
    intro h
    exact hnd.2.2 h (by simp)

/-- The invariant is not trivial: an index whose trie holds a path that
PathMap does not know violates it. -/
theorem crossIndexInv_rejects_dangling_path :
    ¬ CrossIndexInv { m_fileNameTrie := trieInsert (bytes "a") (bytes "/r/a") TrieNode.empty
                      m_pathToMetadata := []
                      m_extensionToFiles := [] } := by
  intro h
  obtain ⟨m, hm, _⟩ := h.trie (bytes "a", true, [bytes "/r/a"]) (by decide) (bytes "/r/a")
    (by decide)
  cases hm

end FileFinder
